import Mathlib

/-!
Verification of the diskdiff snapshot tool (FilesystemElement text codec,
FileLister directory traversal, DirectoryTree serialization and the two-way
diff engine) against its natural-language specification.

The C++ sources are shallowly embedded:
* `std::istringstream` extraction is modelled on `List Char` with explicit
  whitespace skipping, exactly mirroring formatted extraction of
  `std::string`, integers, `std::get_time` with format "%Y-%m-%d %T"
  (libstdc++ semantics: up to 4/2 digits per field, with the range checks
  1..12 for months, 1..31 for days, 0..23/0..59/0..60 for time of day,
  literal characters matched exactly, whitespace in the format skipping
  input whitespace), unformatted `read`, and `std::quoted` extraction and
  insertion used by `operator>>`/`operator<<` on `std::filesystem::path`.
* glibc `timegm`/`gmtime_r` are modelled with the standard civil-calendar
  conversion (days-from-civil and its inverse); `timegm` normalizes
  out-of-range day-of-month values by day arithmetic, which the linear
  day-of-year formula reproduces.  All divisions are floor divisions
  (the `Int` division of this library) on non-negative operands.
* `perms` bit tests (`pe & 0400` etc.) are expressed as arithmetic bit
  extraction `per / 2^k % 2`, and permission strings are built and parsed
  one octal digit (three characters) at a time, as in the C++ loops.
-/

set_option linter.unusedVariables false

namespace DiskDiff

/-! ## Low-level stream primitives -/

abbrev Chars := List Char

/-- The characters `std::isspace` accepts in the default locale. -/
def isSpc (c : Char) : Bool :=
  c == ' ' || c == '\t' || c == '\n' || c == '\x0b' || c == '\x0c' || c == '\r'

/-- Skip leading whitespace, as the sentry of formatted extraction does. -/
def skipWs (cs : Chars) : Chars := cs.dropWhile isSpc

/-- `in >> str` for a `std::string`: skip whitespace, take the maximal
non-whitespace run; fail (failbit) when that run is empty. -/
def readToken (cs : Chars) : Option (String × Chars) :=
  let cs1 := skipWs cs
  let tok := cs1.takeWhile fun c => !isSpc c
  if tok.isEmpty then none
  else some (⟨tok⟩, cs1.dropWhile fun c => !isSpc c)

/-- `std::isdigit`. -/
def isDig (c : Char) : Bool := 47 < c.toNat && c.toNat < 58

def digitVal (c : Char) : Nat := c.toNat - 48

def decValue (ds : Chars) : Nat := ds.foldl (fun a c => a * 10 + digitVal c) 0

/-- Digit run of an integer extraction: maximal digit prefix, at least one
digit required. -/
def readNat (cs : Chars) : Option (Nat × Chars) :=
  let ds := cs.takeWhile isDig
  if ds.isEmpty then none
  else some (decValue ds, cs.dropWhile isDig)

/-- `in >> n` for a signed integer: skip whitespace, optional sign, digits. -/
def readInt (cs : Chars) : Option (Int × Chars) :=
  let cs1 := skipWs cs
  if cs1.head? = some '-' then (readNat cs1.tail).map fun p => (-(p.1 : Int), p.2)
  else if cs1.head? = some '+' then (readNat cs1.tail).map fun p => ((p.1 : Int), p.2)
  else (readNat cs1).map fun p => ((p.1 : Int), p.2)

/-- One numeric field of `std::get_time`: at most `len` digits, at least
one, value within `lo..hi` (libstdc++ `_M_extract_num`). -/
def readBounded (lo hi len : Nat) (cs : Chars) : Option (Nat × Chars) :=
  let ds := (cs.take len).takeWhile isDig
  if ds.isEmpty then none
  else
    let v := decValue ds
    if lo ≤ v ∧ v ≤ hi then some (v, cs.drop ds.length) else none

/-- A literal (non-whitespace) character of a `std::get_time` format. -/
def expectCh (c : Char) (cs : Chars) : Option Chars :=
  match cs with
  | [] => none
  | c2 :: rest => if c2 = c then some rest else none

/-- Body of a `std::quoted` extraction after the opening delimiter:
read until an unescaped `"`, the escape `\` making the next character
literal; hitting end of input sets failbit. -/
def readQuotedGo : Chars → Chars → Option (String × Chars)
  | [], _ => none
  | [c], acc => if c = '"' then some (⟨acc.reverse⟩, []) else none
  | c1 :: c2 :: rest, acc =>
    if c1 = '\\' then readQuotedGo rest (c2 :: acc)
    else if c1 = '"' then some (⟨acc.reverse⟩, c2 :: rest)
    else readQuotedGo (c2 :: rest) (c1 :: acc)

/-- `in >> p` for a `std::filesystem::path`: a `std::quoted` extraction —
if the first non-whitespace character is `"` read a quoted string,
otherwise fall back to ordinary token extraction. -/
def readQuoted (cs : Chars) : Option (String × Chars) :=
  let cs1 := skipWs cs
  if cs1.head? = some '"' then readQuotedGo cs1.tail []
  else readToken cs1

/-! ## Calendar model of `timegm` / `gmtime_r` -/

/-- Days since 1970-01-01 of a civil date (standard algorithm; linear in
`d`, so out-of-range days-of-month normalize exactly as `timegm` does). -/
def daysFromCivil (y m d : Int) : Int :=
  let yy := if m ≤ 2 then y - 1 else y
  let era := yy / 400
  let yoe := yy - era * 400
  let mp := if 2 < m then m - 3 else m + 9
  let doy := (153 * mp + 2) / 5 + d - 1
  let doe := yoe * 365 + yoe / 4 - yoe / 100 + doy
  era * 146097 + doe - 719468

/-- Year of era of a day of era (the division formula of the standard
civil-from-days algorithm). -/
def yoeOf (doe : Int) : Int := (doe - doe / 1460 + doe / 36524 - doe / 146096) / 365

/-- First day of era of a year of era. -/
def yearStart (y : Int) : Int := 365 * y + y / 4 - y / 100

/-- Civil date of a count of days since 1970-01-01 (inverse algorithm). -/
def civilFromDays (z0 : Int) : Int × Int × Int :=
  let z := z0 + 719468
  let era := z / 146097
  let doe := z % 146097
  let yoe := yoeOf doe
  let y := yoe + era * 400
  let doy := doe - yearStart yoe
  let mp := (5 * doy + 2) / 153
  let d := doy - (153 * mp + 2) / 5 + 1
  let m := if mp < 10 then mp + 3 else mp - 9
  (if m ≤ 2 then y + 1 else y, m, d)

/-- Broken-down time, the fields of `struct tm` the codec touches. -/
structure Tm where
  year : Int
  mon : Int
  mday : Int
  hour : Int
  minute : Int
  sec : Int
deriving DecidableEq, Repr

/-- `timegm`: seconds since the epoch of a broken-down UTC time. -/
def timegmM (t : Tm) : Int :=
  daysFromCivil t.year t.mon t.mday * 86400 + t.hour * 3600 + t.minute * 60 + t.sec

/-- `gmtime_r`: broken-down UTC time of a count of epoch seconds. -/
def gmtimeM (z : Int) : Tm :=
  let days := z / 86400
  let secs := z % 86400
  let c := civilFromDays days
  { year := c.1, mon := c.2.1, mday := c.2.2, hour := secs / 3600,
    minute := secs % 3600 / 60, sec := secs % 60 }

/-! ## Decimal and permission-string rendering -/

def decDigit (k : Nat) : Char :=
  match k with
  | 0 => '0' | 1 => '1' | 2 => '2' | 3 => '3' | 4 => '4'
  | 5 => '5' | 6 => '6' | 7 => '7' | 8 => '8' | _ => '9'

/-- Decimal digits, with enough fuel to terminate structurally. -/
def natDecAux : Nat → Nat → Chars
  | 0, _ => []
  | fuel + 1, n =>
    if n < 10 then [decDigit n]
    else natDecAux fuel (n / 10) ++ [decDigit (n % 10)]

/-- Decimal digits of a natural number (most significant first). -/
def natDec (n : Nat) : Chars := natDecAux (n + 1) n

/-- `os << z` for a signed integer. -/
def intDec (z : Int) : Chars :=
  if z < 0 then '-' :: natDec z.natAbs else natDec z.toNat

/-- A zero-padded two-digit field of `put_time`. -/
def pad2 (n : Int) : Chars :=
  let m := n.toNat
  if m < 10 then '0' :: natDec m else natDec m

/-- `put_time(&t, "%F %T")` of the broken-down time of `z` epoch seconds. -/
def timeChars (z : Int) : Chars :=
  let t := gmtimeM z
  intDec t.year ++ '-' :: pad2 t.mon ++ '-' :: pad2 t.mday ++
  ' ' :: pad2 t.hour ++ ':' :: pad2 t.minute ++ ':' :: pad2 t.sec

/-! ## FilesystemElement and its text codec -/

/-- `std::filesystem::file_type` as the codec distinguishes it. -/
inductive FileTy where
  | regular | directory | symlink | unknown
deriving DecidableEq, Repr

/-- The fields of `FilesystemElement` (permissions as a plain natural
number, paths and names as strings). -/
structure FilesystemElement where
  ty : FileTy
  per : Nat
  us : String
  gs : String
  mt : Int
  sz : Int
  fileHash : String
  rp : String
  symlink : String
  hardLinkCnt : Nat
deriving DecidableEq, Repr

/-- A default-constructed `FilesystemElement`: `file_type::unknown`,
`perms::unknown` (0xFFFF), zero/empty members, hard-link count 1. -/
def emptyElem : FilesystemElement :=
  { ty := .unknown, per := 65535, us := "", gs := "", mt := 0, sz := 0,
    fileHash := "", rp := "", symlink := "", hardLinkCnt := 1 }

/-- Three permission characters of one octal digit (`r`, `w`, `x` for the
4, 2, 1 bits). -/
def triChars (dgt : Nat) : Chars :=
  [if dgt / 4 % 2 = 1 then 'r' else '-',
   if dgt / 2 % 2 = 1 then 'w' else '-',
   if dgt % 2 = 1 then 'x' else '-']

/-- The 10-character permission string `writeTo` produces. -/
def permChars (e : FilesystemElement) : Chars :=
  (match e.ty with
   | .regular => '-'
   | .directory => 'd'
   | .symlink => 'l'
   | .unknown => '?') ::
  (triChars (e.per / 64 % 8) ++ triChars (e.per / 8 % 8) ++ triChars (e.per % 8))

/-- The type character of the permission string, as `readFrom` matches it. -/
def tyOfChar (c : Char) : Except String FileTy :=
  if c = '-' then .ok .regular
  else if c = 'd' then .ok .directory
  else if c = 'l' then .ok .symlink
  else if c = '?' then .ok .unknown
  else .error "Unrecognized file type"

/-- One permission triple of `readFrom`: `r`/`w`/`x` in their positions,
`-` for an unset bit, anything else a parse error. -/
def triVal (a b c : Char) : Except String Nat :=
  if a ≠ 'r' ∧ a ≠ '-' then .error "Permissions not correct"
  else if b ≠ 'w' ∧ b ≠ '-' then .error "Permissions not correct"
  else if c ≠ 'x' ∧ c ≠ '-' then .error "Permissions not correct"
  else .ok ((if a = 'r' then 4 else 0) + (if b = 'w' then 2 else 0) +
    (if c = 'x' then 1 else 0))

/-- Parse the 10-character permission string into a type and a 9-bit
permission value (the `pe <<= 3` accumulation of `readFrom`). -/
def parsePerm (t : String) : Except String (FileTy × Nat) :=
  match t.data with
  | [c0, c1, c2, c3, c4, c5, c6, c7, c8, c9] =>
    match tyOfChar c0 with
    | .error er => .error er
    | .ok ty =>
      match triVal c1 c2 c3 with
      | .error er => .error er
      | .ok t1 =>
        match triVal c4 c5 c6 with
        | .error er => .error er
        | .ok t2 =>
          match triVal c7 c8 c9 with
          | .error er => .error er
          | .ok t3 => .ok (ty, (t1 * 8 + t2) * 8 + t3)
  | _ => .error "Error reading permission string"

/-- `in >> get_time(&t, "%Y-%m-%d %T")`. -/
def parseTimeFields (cs : Chars) : Option (Tm × Chars) := do
  let cs := skipWs cs
  let (y, cs) ← readBounded 0 9999 4 cs
  let cs ← expectCh '-' cs
  let (mo, cs) ← readBounded 1 12 2 cs
  let cs ← expectCh '-' cs
  let (d, cs) ← readBounded 1 31 2 cs
  let cs := skipWs cs
  let (h, cs) ← readBounded 0 23 2 cs
  let cs ← expectCh ':' cs
  let (mi, cs) ← readBounded 0 59 2 cs
  let cs ← expectCh ':' cs
  let (s, cs) ← readBounded 0 60 2 cs
  some ({ year := y, mon := mo, mday := d, hour := h, minute := mi, sec := s }, cs)

/-- The final `in >> rp` / EOF check of `readFrom`: read the relative path
as a `std::filesystem::path` (quoted extraction) and require end of line. -/
def finishPath (e : FilesystemElement) (cs : Chars) : Except String FilesystemElement :=
  match readQuoted cs with
  | none => .error "Error reading path"
  | some (rp, rest) =>
    if rest.isEmpty then .ok { e with rp := rp, hardLinkCnt := 1 }
    else .error "Extra characters at end of line"

/-- The continuation of `FilesystemElement::readFrom` after the timestamp
has been converted: the `mt == -1` rejection, the `in.read(tz.data(), 6)`
of the UTC offset with its `" +0000"` comparison, the type-conditional
size/hash or symlink-target fields, and the final path/end-of-line step.
`cs4` is the stream contents right after the seconds field. -/
def readFromTail (ty : FileTy) (pe : Nat) (us gs : String) (mt : Int)
    (cs4 : Chars) : Except String FilesystemElement :=
  if mt = -1 then .error "Error reading mtime"
  else if cs4.length < 6 then .error "Error reading mtime"
  else if (⟨cs4.take 6⟩ : String) ≠ " +0000" then .error "Error reading mtime"
  else
  let cs5 := cs4.drop 6
  match ty with
  | .regular =>
    match readInt cs5 with
    | none => .error "Error reading size"
    | some (sz, cs6) =>
    match readToken cs6 with
    | none => .error "Error reading hash"
    | some (fh, cs7) =>
    if fh.length ≠ 40 then .error "Error reading hash"
    else
      let e := { emptyElem with
        ty := ty
        per := pe
        us := us
        gs := gs
        mt := mt
        sz := sz
        fileHash := fh }
      finishPath e cs7
  | .symlink =>
    match readQuoted cs5 with
    | none => .error "Error reading symlink target"
    | some (sl, cs6) =>
      let e := { emptyElem with
        ty := ty
        per := pe
        us := us
        gs := gs
        mt := mt
        symlink := sl }
      finishPath e cs6
  | _ =>
    let e := { emptyElem with
      ty := ty
      per := pe
      us := us
      gs := gs
      mt := mt }
    finishPath e cs5

/-- `FilesystemElement::readFrom` on one line of a snapshot file (the
error strings are the `fail(...)` reasons of the C++ code, without the
file-name/line-number decoration). -/
def readFrom (line : String) : Except String FilesystemElement :=
  match readToken line.data with
  | none => .error "Error reading permission string"
  | some (permStr, cs1) =>
  if permStr.length ≠ 10 then .error "Error reading permission string"
  else
  match parsePerm permStr with
  | .error e => .error e
  | .ok (ty, pe) =>
  match readToken cs1 with
  | none => .error "Error reading user/group"
  | some (us, cs2) =>
  match readToken cs2 with
  | none => .error "Error reading user/group"
  | some (gs, cs3) =>
  match parseTimeFields cs3 with
  | none => .error "Error reading mtime"
  | some (t, cs4) => readFromTail ty pe us gs (timegmM t) cs4

/-- `os << std::quoted(s)`: the delimiter-wrapped, escape-protected form
`operator<<` uses for `std::filesystem::path`. -/
def escChars : Chars → Chars
  | [] => []
  | c :: rest =>
    if c = '"' ∨ c = '\\' then '\\' :: c :: escChars rest
    else c :: escChars rest

def quoteChars (s : String) : Chars := '"' :: escChars s.data ++ ['"']

/-- The type-conditional fields `writeTo` emits after the timestamp: size
and hash for a regular file, the quoted target for a symlink, nothing
otherwise, followed by the quoted relative path. -/
def typeFields (e : FilesystemElement) (hash : String) : Chars :=
  match e.ty with
  | .regular => intDec e.sz ++ ' ' :: (hash.data ++ ' ' :: quoteChars e.rp)
  | .symlink => quoteChars e.symlink ++ ' ' :: quoteChars e.rp
  | _ => quoteChars e.rp

/-- `FilesystemElement::writeTo` without the trailing newline, generalized
over the UTC-offset text and the hash text (the real writer uses
`" +0000"` and the element's own hash; the generalization lets the
strictness theorems speak about corrupted variants of a line). -/
def writeLineG (e : FilesystemElement) (off : String) (hash : String) : Chars :=
  permChars e ++ ' ' :: (e.us.data ++ ' ' :: (e.gs.data ++
    ' ' :: (timeChars e.mt ++ (off.data ++ ' ' :: typeFields e hash))))

/-- The single line `FilesystemElement::writeTo` produces (without the
final `'\n'`). -/
def writeLine (e : FilesystemElement) : Chars := writeLineG e " +0000" e.fileHash

/-- `FilesystemElement::writeTo`, newline included. -/
def writeTo (e : FilesystemElement) : Chars := writeLine e ++ ['\n']

/-- Whether a string is a valid single extraction token: non-empty and
free of whitespace. -/
def isTokB (s : String) : Bool :=
  !s.data.isEmpty && s.data.all fun c => !isSpc c

/-- Well-formedness of a record as the on-disk constructor produces it:
owner and group are tokens, the timestamp is representable (non-negative,
before year 10000), permissions fit in 9 bits, and the type-conditional
fields are populated exactly for their type (empty/zero otherwise). -/
def wfElem (e : FilesystemElement) : Bool :=
  isTokB e.us && isTokB e.gs &&
  decide (0 ≤ e.mt) && decide (e.mt < 253402300800) &&
  decide (e.per < 512) &&
  (match e.ty with
   | .regular =>
     decide (0 ≤ e.sz) && decide (e.fileHash.length = 40) && isTokB e.fileHash &&
     decide (e.symlink = "")
   | .symlink => decide (e.sz = 0) && decide (e.fileHash = "")
   | _ => decide (e.sz = 0) && decide (e.fileHash = "") && decide (e.symlink = ""))

/-! ## Calendar lemmas: `daysFromCivil` inverts `civilFromDays` -/

theorem yoe_bounds (doe : Int) (h0 : 0 ≤ doe) (h1 : doe ≤ 146096) :
    0 ≤ yoeOf doe ∧ yoeOf doe ≤ 399 := by
  have h : yoeOf doe = (doe - doe / 1460 + doe / 36524 - doe / 146096) / 365 := rfl
  omega

set_option maxHeartbeats 8000000 in
theorem yoe_start (doe : Int) (h0 : 0 ≤ doe) (h1 : doe ≤ 146096) :
    yearStart (yoeOf doe) ≤ doe ∧ doe ≤ yearStart (yoeOf doe) + 365 := by
  obtain ⟨hb1, hb2⟩ := yoe_bounds doe h0 h1
  set Y := yoeOf doe with hY
  have hYd : Y = (doe - doe / 1460 + doe / 36524 - doe / 146096) / 365 := by
    rw [hY]; rfl
  clear_value Y
  unfold yearStart
  interval_cases Y <;> omega

set_option maxHeartbeats 4000000 in
theorem civil_inv (z y m d : Int) (h0 : 0 ≤ z) (h1 : z ≤ 2932896)
    (hc : civilFromDays z = (y, m, d)) :
    1 ≤ m ∧ m ≤ 12 ∧ 1 ≤ d ∧ d ≤ 31 ∧ 1600 ≤ y ∧ y ≤ 9999 ∧
    daysFromCivil y m d = z := by
  have hdoe0 : 0 ≤ (z + 719468) % 146097 := by omega
  have hdoe1 : (z + 719468) % 146097 ≤ 146096 := by omega
  obtain ⟨hs1, hs2⟩ := yoe_start _ hdoe0 hdoe1
  obtain ⟨hb1, hb2⟩ := yoe_bounds _ hdoe0 hdoe1
  have hys : yearStart (yoeOf ((z + 719468) % 146097)) =
      365 * yoeOf ((z + 719468) % 146097) + yoeOf ((z + 719468) % 146097) / 4 -
      yoeOf ((z + 719468) % 146097) / 100 := rfl
  have hg400 : (yoeOf ((z + 719468) % 146097) + (z + 719468) / 146097 * 400) / 400 =
      (z + 719468) / 146097 := by omega
  simp only [civilFromDays, Prod.mk.injEq] at hc
  obtain ⟨hcy, hcm, hcd⟩ := hc
  subst hcd
  subst hcm
  subst hcy
  simp only [daysFromCivil]
  split_ifs <;>
    (try simp only [add_sub_cancel_right, sub_add_cancel]) <;>
    (try rw [hg400]) <;>
    (try simp only [add_sub_cancel_right, sub_add_cancel]) <;>
    omega

theorem time_inv (z : Int) (h0 : 0 ≤ z) (h1 : z < 253402300800) :
    1600 ≤ (gmtimeM z).year ∧ (gmtimeM z).year ≤ 9999 ∧
    1 ≤ (gmtimeM z).mon ∧ (gmtimeM z).mon ≤ 12 ∧
    1 ≤ (gmtimeM z).mday ∧ (gmtimeM z).mday ≤ 31 ∧
    0 ≤ (gmtimeM z).hour ∧ (gmtimeM z).hour ≤ 23 ∧
    0 ≤ (gmtimeM z).minute ∧ (gmtimeM z).minute ≤ 59 ∧
    0 ≤ (gmtimeM z).sec ∧ (gmtimeM z).sec ≤ 59 ∧
    timegmM (gmtimeM z) = z := by
  have hd0 : 0 ≤ z / 86400 := by omega
  have hd1 : z / 86400 ≤ 2932896 := by omega
  obtain ⟨m1, m2, d1, d2, y1, y2, hinv⟩ :=
    civil_inv (z / 86400) (civilFromDays (z / 86400)).1
      (civilFromDays (z / 86400)).2.1 (civilFromDays (z / 86400)).2.2 hd0 hd1 rfl
  simp only [gmtimeM, timegmM]
  refine ⟨y1, y2, m1, m2, d1, d2, ?_, ?_, ?_, ?_, ?_, ?_, ?_⟩ <;> omega

/-! ## Lemmas about the stream primitives -/

theorem takeWhile_app_cons {p : Char → Bool} (l : Chars) (b : Char) (r : Chars)
    (hl : ∀ c ∈ l, p c = true) (hb : p b = false) :
    (l ++ b :: r).takeWhile p = l := by
  induction l with
  | nil => rw [List.nil_append, List.takeWhile_cons, if_neg (by simp [hb])]
  | cons a t ih =>
    rw [List.cons_append, List.takeWhile_cons, if_pos (hl a (by simp)),
      ih fun c hc => hl c (by simp [hc])]

theorem dropWhile_app_cons {p : Char → Bool} (l : Chars) (b : Char) (r : Chars)
    (hl : ∀ c ∈ l, p c = true) (hb : p b = false) :
    (l ++ b :: r).dropWhile p = b :: r := by
  induction l with
  | nil => rw [List.nil_append, List.dropWhile_cons, if_neg (by simp [hb])]
  | cons a t ih =>
    rw [List.cons_append, List.dropWhile_cons, if_pos (hl a (by simp))]
    exact ih fun c hc => hl c (by simp [hc])

theorem takeWhile_all {p : Char → Bool} (l : Chars) (hl : ∀ c ∈ l, p c = true) :
    l.takeWhile p = l := by
  induction l with
  | nil => rfl
  | cons a t ih =>
    rw [List.takeWhile_cons, if_pos (hl a (by simp)),
      ih fun c hc => hl c (by simp [hc])]

theorem dropWhile_all {p : Char → Bool} (l : Chars) (hl : ∀ c ∈ l, p c = true) :
    l.dropWhile p = [] := by
  induction l with
  | nil => rfl
  | cons a t ih =>
    rw [List.dropWhile_cons, if_pos (hl a (by simp))]
    exact ih fun c hc => hl c (by simp [hc])

theorem skipWs_cons_spc {b : Char} (cs : Chars) (hb : isSpc b = true) :
    skipWs (b :: cs) = skipWs cs := by
  simp [skipWs, List.dropWhile_cons, hb]

theorem skipWs_cons_not {b : Char} (cs : Chars) (hb : isSpc b = false) :
    skipWs (b :: cs) = b :: cs := by
  simp [skipWs, List.dropWhile_cons, hb]

theorem isTok_ne_nil {t : String} (h : isTokB t = true) : t.data ≠ [] := by
  simp only [isTokB, Bool.and_eq_true, Bool.not_eq_true', List.isEmpty_eq_false] at h
  exact h.1

theorem isTok_not_spc {t : String} (h : isTokB t = true) :
    ∀ c ∈ t.data, isSpc c = false := by
  simp only [isTokB, Bool.and_eq_true, List.all_eq_true, Bool.not_eq_true'] at h
  exact h.2

theorem readToken_spc {b : Char} (cs : Chars) (hb : isSpc b = true) :
    readToken (b :: cs) = readToken cs := by
  simp [readToken, skipWs_cons_spc _ hb]

theorem readToken_app (t : String) {b : Char} (r : Chars) (ht : isTokB t = true)
    (hb : isSpc b = true) :
    readToken (t.data ++ b :: r) = some (t, b :: r) := by
  obtain ⟨c, cs, hcons⟩ : ∃ c cs, t.data = c :: cs := by
    cases hd : t.data with
    | nil => exact absurd hd (isTok_ne_nil ht)
    | cons c cs => exact ⟨c, cs, rfl⟩
  have hns := isTok_not_spc ht
  simp only [readToken]
  rw [show skipWs (t.data ++ b :: r) = t.data ++ b :: r by
    rw [hcons, List.cons_append]
    exact skipWs_cons_not _ (hns c (by rw [hcons]; simp))]
  rw [takeWhile_app_cons _ _ _ (fun c hc => by simp [hns c hc]) (by simp [hb]),
    dropWhile_app_cons _ _ _ (fun c hc => by simp [hns c hc]) (by simp [hb])]
  rw [if_neg (by simp [isTok_ne_nil ht])]

theorem readToken_end (t : String) (ht : isTokB t = true) :
    readToken t.data = some (t, []) := by
  obtain ⟨c, cs, hcons⟩ : ∃ c cs, t.data = c :: cs := by
    cases hd : t.data with
    | nil => exact absurd hd (isTok_ne_nil ht)
    | cons c cs => exact ⟨c, cs, rfl⟩
  have hns := isTok_not_spc ht
  simp only [readToken]
  rw [show skipWs t.data = t.data by
    rw [hcons]
    exact skipWs_cons_not _ (hns c (by rw [hcons]; simp))]
  rw [takeWhile_all _ fun c hc => by simp [hns c hc],
    dropWhile_all _ fun c hc => by simp [hns c hc]]
  rw [if_neg (by simp [isTok_ne_nil ht])]

/-! ## Lemmas about decimal digits -/

theorem digitVal_decDigit (k : Nat) (h : k < 10) : digitVal (decDigit k) = k := by
  interval_cases k <;> rfl

theorem isDig_decDigit (k : Nat) (h : k < 10) : isDig (decDigit k) = true := by
  interval_cases k <;> rfl

theorem isDig_not_spc {c : Char} (h : isDig c = true) : isSpc c = false := by
  by_contra hc
  rw [Bool.not_eq_false] at hc
  simp only [isSpc, Bool.or_eq_true, beq_iff_eq] at hc
  rcases hc with ((((rfl | rfl) | rfl) | rfl) | rfl) | rfl <;> revert h <;> decide

theorem isDig_ne_signs {c : Char} (h : isDig c = true) :
    c ≠ '-' ∧ c ≠ '+' ∧ c ≠ '"' := by
  refine ⟨?_, ?_, ?_⟩ <;> (rintro rfl; revert h; decide)

theorem natDecAux_fuel (f1 : Nat) : ∀ f2 n, n < f1 → n < f2 →
    natDecAux f1 n = natDecAux f2 n := by
  induction f1 with
  | zero => omega
  | succ f ih =>
    intro f2 n h1 h2
    cases f2 with
    | zero => omega
    | succ f2 =>
      show (if n < 10 then _ else _) = (if n < 10 then _ else _)
      split
      · rfl
      · rw [ih f2 (n / 10) (by omega) (by omega)]

theorem natDec_eq (n : Nat) :
    natDec n = if n < 10 then [decDigit n] else natDec (n / 10) ++ [decDigit (n % 10)] := by
  show natDecAux (n + 1) n = _
  rw [show natDecAux (n + 1) n = if n < 10 then [decDigit n]
    else natDecAux n (n / 10) ++ [decDigit (n % 10)] from rfl]
  split
  · rfl
  · rw [natDecAux_fuel n (n / 10 + 1) (n / 10) (by omega) (by omega)]
    rfl

theorem natDec_digits (n : Nat) : ∀ c ∈ natDec n, isDig c = true := by
  induction n using Nat.strong_induction_on with
  | _ n ih =>
    rw [natDec_eq]
    split
    · intro c hc
      rw [List.mem_singleton] at hc
      subst hc
      exact isDig_decDigit n (by omega)
    · intro c hc
      rw [List.mem_append] at hc
      rcases hc with hc | hc
      · exact ih (n / 10) (by omega) c hc
      · rw [List.mem_singleton] at hc
        subst hc
        exact isDig_decDigit _ (by omega)

theorem natDec_ne_nil (n : Nat) : natDec n ≠ [] := by
  rw [natDec_eq]
  split <;> simp

theorem decValue_app_last (l : Chars) (c : Char) :
    decValue (l ++ [c]) = decValue l * 10 + digitVal c := by
  simp [decValue, List.foldl_append]

theorem decValue_natDec (n : Nat) : decValue (natDec n) = n := by
  induction n using Nat.strong_induction_on with
  | _ n ih =>
    rw [natDec_eq]
    split
    · simp [decValue, digitVal_decDigit n (by omega)]
    · rw [decValue_app_last, ih (n / 10) (by omega),
        digitVal_decDigit _ (by omega)]
      omega

theorem natDec_len1 (n : Nat) (h : n < 10) : (natDec n).length = 1 := by
  rw [natDec_eq, if_pos h]
  rfl

theorem natDec_len_succ (n : Nat) (h : 10 ≤ n) :
    (natDec n).length = (natDec (n / 10)).length + 1 := by
  rw [natDec_eq, if_neg (by omega)]
  simp

theorem natDec_len4 (n : Nat) (h1 : 1000 ≤ n) (h2 : n ≤ 9999) :
    (natDec n).length = 4 := by
  rw [natDec_len_succ n (by omega), natDec_len_succ (n / 10) (by omega),
    natDec_len_succ (n / 10 / 10) (by omega), natDec_len1 (n / 10 / 10 / 10) (by omega)]

theorem natDec_len2 (n : Nat) (h1 : 10 ≤ n) (h2 : n ≤ 99) :
    (natDec n).length = 2 := by
  rw [natDec_len_succ n (by omega), natDec_len1 (n / 10) (by omega)]

theorem pad2_digits (n : Int) : ∀ c ∈ pad2 n, isDig c = true := by
  simp only [pad2]
  split
  · intro c hc
    rcases List.mem_cons.1 hc with hc | hc
    · subst hc; decide
    · exact natDec_digits _ c hc
  · exact natDec_digits _

theorem pad2_len (n : Int) (h0 : 0 ≤ n) (h1 : n ≤ 99) : (pad2 n).length = 2 := by
  simp only [pad2]
  split
  · simp [natDec_len1 n.toNat (by assumption)]
  · exact natDec_len2 n.toNat (by omega) (by omega)

theorem pad2_value (n : Int) : decValue (pad2 n) = n.toNat := by
  simp only [pad2]
  split
  · show decValue ('0' :: natDec n.toNat) = n.toNat
    have : decValue ('0' :: natDec n.toNat) = decValue (natDec n.toNat) := by
      simp [decValue, digitVal]
    rw [this, decValue_natDec]
  · exact decValue_natDec _

theorem pad2_ne_nil (n : Int) : pad2 n ≠ [] := by
  simp only [pad2]
  split
  · simp
  · exact natDec_ne_nil _
/-! ## Lemmas about numeric and quoted extraction -/

theorem readNat_app (ds : Chars) {b : Char} (r : Chars) (hds : ∀ c ∈ ds, isDig c = true)
    (hne : ds ≠ []) (hb : isDig b = false) :
    readNat (ds ++ b :: r) = some (decValue ds, b :: r) := by
  simp only [readNat]
  rw [takeWhile_app_cons _ _ _ hds hb, dropWhile_app_cons _ _ _ hds hb,
    if_neg (by simp [hne])]

theorem readInt_spc {b : Char} (cs : Chars) (hb : isSpc b = true) :
    readInt (b :: cs) = readInt cs := by
  simp only [readInt, skipWs_cons_spc _ hb]

theorem readInt_natDec (n : Nat) {b : Char} (r : Chars) (hb : isDig b = false) :
    readInt (natDec n ++ b :: r) = some ((n : Int), b :: r) := by
  obtain ⟨c, cs, hcons⟩ : ∃ c cs, natDec n = c :: cs := by
    cases hd : natDec n with
    | nil => exact absurd hd (natDec_ne_nil n)
    | cons c cs => exact ⟨c, cs, rfl⟩
  have hdig : isDig c = true := natDec_digits n c (by rw [hcons]; simp)
  obtain ⟨hm, hp, _⟩ := isDig_ne_signs hdig
  simp only [readInt]
  rw [show skipWs (natDec n ++ b :: r) = natDec n ++ b :: r by
    rw [hcons, List.cons_append]
    exact skipWs_cons_not _ (isDig_not_spc hdig)]
  rw [hcons, List.cons_append, List.head?_cons]
  rw [if_neg (by simp [hm]), if_neg (by simp [hp]), ← List.cons_append, ← hcons,
    readNat_app _ _ (natDec_digits n) (natDec_ne_nil n) hb, decValue_natDec]
  rfl

theorem intDec_nonneg (z : Int) (h : 0 ≤ z) : intDec z = natDec z.toNat := by
  simp only [intDec]
  rw [if_neg (by omega)]

theorem readBounded_exact (lo hi : Nat) (ds : Chars) (r : Chars)
    (hds : ∀ c ∈ ds, isDig c = true) (hne : ds ≠ [])
    (hlo : lo ≤ decValue ds) (hhi : decValue ds ≤ hi) :
    readBounded lo hi ds.length (ds ++ r) = some (decValue ds, r) := by
  simp only [readBounded]
  rw [List.take_left, takeWhile_all _ hds, if_neg (by simp [hne]),
    if_pos ⟨hlo, hhi⟩, List.drop_left]

theorem expectCh_cons (c : Char) (r : Chars) : expectCh c (c :: r) = some r := by
  simp [expectCh]

/-! ## Lemmas about `std::quoted` -/

theorem readQuotedGo_esc_step (c2 : Char) (rest2 acc : Chars) :
    readQuotedGo ('\\' :: c2 :: rest2) acc = readQuotedGo rest2 (c2 :: acc) := by
  simp [readQuotedGo]

theorem readQuotedGo_close (rest acc : Chars) :
    readQuotedGo ('"' :: rest) acc = some (⟨acc.reverse⟩, rest) := by
  cases rest <;> simp [readQuotedGo]

theorem readQuotedGo_other (c : Char) (rest acc : Chars) (h1 : c ≠ '\\')
    (h2 : c ≠ '"') :
    readQuotedGo (c :: rest) acc = readQuotedGo rest (c :: acc) := by
  cases rest <;> simp [readQuotedGo, h1, h2]

theorem readQuotedGo_esc (s : Chars) (acc : Chars) (r : Chars) :
    readQuotedGo (escChars s ++ '"' :: r) acc = some (⟨acc.reverse ++ s⟩, r) := by
  induction s generalizing acc with
  | nil =>
    rw [show escChars [] = [] from rfl, List.nil_append, readQuotedGo_close]
    simp
  | cons c cs ih =>
    by_cases hc : c = '"' ∨ c = '\\'
    · rw [show escChars (c :: cs) = '\\' :: c :: escChars cs by
        simp only [escChars, if_pos hc], List.cons_append, List.cons_append,
        readQuotedGo_esc_step, ih (c :: acc)]
      simp
    · push_neg at hc
      rw [show escChars (c :: cs) = c :: escChars cs by
        simp only [escChars, if_neg (by tauto : ¬(c = '"' ∨ c = '\\'))],
        List.cons_append, readQuotedGo_other c _ _ hc.2 hc.1, ih (c :: acc)]
      simp

theorem readQuoted_app (s : String) (r : Chars) :
    readQuoted (quoteChars s ++ r) = some (s, r) := by
  have hsh : quoteChars s ++ r = '"' :: (escChars s.data ++ '"' :: r) := by
    simp [quoteChars]
  rw [hsh]
  simp only [readQuoted]
  rw [skipWs_cons_not _ (by decide), List.head?_cons, if_pos rfl, List.tail_cons,
    readQuotedGo_esc]
  simp

theorem readQuoted_spc {b : Char} (cs : Chars) (hb : isSpc b = true) :
    readQuoted (b :: cs) = readQuoted cs := by
  simp only [readQuoted, skipWs_cons_spc _ hb]

/-! ## Lemmas about the permission string -/

theorem triVal_bits (d : Nat) (h : d < 8) :
    triVal (if d / 4 % 2 = 1 then 'r' else '-') (if d / 2 % 2 = 1 then 'w' else '-')
      (if d % 2 = 1 then 'x' else '-') = .ok d := by
  interval_cases d <;> rfl

theorem triChars_not_spc (d : Nat) : ∀ c ∈ triChars d, isSpc c = false := by
  intro c hc
  simp only [triChars, List.mem_cons, List.mem_singleton, List.not_mem_nil, or_false] at hc
  rcases hc with hc | hc | hc <;> (subst hc; split <;> decide)

theorem permChars_len (e : FilesystemElement) : (permChars e).length = 10 := by
  rcases e with ⟨ty, per, us, gs, mt, sz, fileHash, rp, symlink, hlc⟩
  rcases ty <;> simp [permChars, triChars]

theorem permChars_not_spc (e : FilesystemElement) :
    ∀ c ∈ permChars e, isSpc c = false := by
  intro c hc
  simp only [permChars, List.mem_cons, List.mem_append] at hc
  rcases hc with hc | (hc | hc) | hc
  · subst hc
    cases e.ty <;> decide
  · exact triChars_not_spc _ c hc
  · exact triChars_not_spc _ c hc
  · exact triChars_not_spc _ c hc

theorem permChars_ne_nil (e : FilesystemElement) : permChars e ≠ [] := by
  simp [permChars]

theorem permChars_tok (e : FilesystemElement) : isTokB ⟨permChars e⟩ = true := by
  simp only [isTokB, Bool.and_eq_true, Bool.not_eq_true', List.all_eq_true]
  exact ⟨by simp [permChars_ne_nil e], fun c hc => by simp [permChars_not_spc e c hc]⟩

theorem parsePerm_build (tyc : Char) (per : Nat) (h : per < 512) :
    parsePerm ⟨tyc :: (triChars (per / 64 % 8) ++ triChars (per / 8 % 8) ++
      triChars (per % 8))⟩ =
      match tyOfChar tyc with
      | .error er => .error er
      | .ok ty => .ok (ty, per) := by
  have h1 : per / 64 % 8 < 8 := Nat.mod_lt _ (by omega)
  have h2 : per / 8 % 8 < 8 := Nat.mod_lt _ (by omega)
  have h3 : per % 8 < 8 := Nat.mod_lt _ (by omega)
  show parsePerm ⟨tyc :: (triChars (per / 64 % 8) ++ triChars (per / 8 % 8) ++
    triChars (per % 8))⟩ = _
  simp only [triChars, List.cons_append, List.nil_append, List.append_assoc]
  simp only [parsePerm]
  rw [triVal_bits _ h1, triVal_bits _ h2, triVal_bits _ h3]
  rcases hty : tyOfChar tyc with er | ty
  · rfl
  · show Except.ok (ty, (per / 64 % 8 * 8 + per / 8 % 8) * 8 + per % 8) = .ok (ty, per)
    congr 2
    omega

theorem parsePerm_permChars (e : FilesystemElement) (h : e.per < 512) :
    parsePerm ⟨permChars e⟩ = .ok (e.ty, e.per) := by
  rcases e with ⟨ty, per, us, gs, mt, sz, fileHash, rp, symlink, hlc⟩
  rcases ty <;> (rw [show permChars _ = _ :: _ from rfl, parsePerm_build _ per h]; rfl)
/-! ## Parsing the timestamp text -/

theorem skipWs_head_not {l : Chars} (cs : Chars) (hne : l ≠ [])
    (hns : ∀ c ∈ l, isSpc c = false) : skipWs (l ++ cs) = l ++ cs := by
  obtain ⟨c, t, hcons⟩ : ∃ c t, l = c :: t := by
    cases hd : l with
    | nil => exact absurd hd hne
    | cons c t => exact ⟨c, t, rfl⟩
  rw [hcons, List.cons_append]
  exact skipWs_cons_not _ (hns c (by rw [hcons]; simp))

theorem readToken_list (l : Chars) {b : Char} (r : Chars) (hne : l ≠ [])
    (hns : ∀ c ∈ l, isSpc c = false) (hb : isSpc b = true) :
    readToken (l ++ b :: r) = some (⟨l⟩, b :: r) := by
  simp only [readToken]
  rw [skipWs_head_not _ hne hns,
    takeWhile_app_cons _ _ _ (fun c hc => by simp [hns c hc]) (by simp [hb]),
    dropWhile_app_cons _ _ _ (fun c hc => by simp [hns c hc]) (by simp [hb]),
    if_neg (by simp [hne])]

theorem readToken_list_end (l : Chars) (hne : l ≠ [])
    (hns : ∀ c ∈ l, isSpc c = false) :
    readToken l = some (⟨l⟩, []) := by
  simp only [readToken]
  rw [show skipWs l = l by
    have := skipWs_head_not (l := l) [] hne hns
    simpa using this]
  rw [takeWhile_all _ fun c hc => by simp [hns c hc],
    dropWhile_all _ fun c hc => by simp [hns c hc],
    if_neg (by simp [hne])]

theorem readBounded_run (lo hi len : Nat) (ds : Chars) (r : Chars)
    (hds : ∀ c ∈ ds, isDig c = true) (hne : ds ≠ []) (hlen : ds.length = len)
    (hlo : lo ≤ decValue ds) (hhi : decValue ds ≤ hi) :
    readBounded lo hi len (ds ++ r) = some (decValue ds, r) := by
  subst hlen
  exact readBounded_exact lo hi ds r hds hne hlo hhi

theorem optBind_some {α β : Type} (a : α) (f : α → Option β) :
    (some a : Option α) >>= f = f a := rfl

theorem parseTimeFields_spc {b : Char} (cs : Chars) (hb : isSpc b = true) :
    parseTimeFields (b :: cs) = parseTimeFields cs := by
  simp only [parseTimeFields, skipWs_cons_spc _ hb]

theorem parseTimeFields_build (y mo d h mi s : Int) (r : Chars)
    (hy1 : 1000 ≤ y) (hy2 : y ≤ 9999) (hmo1 : 1 ≤ mo) (hmo2 : mo ≤ 12)
    (hd1 : 1 ≤ d) (hd2 : d ≤ 31) (hh1 : 0 ≤ h) (hh2 : h ≤ 23)
    (hmi1 : 0 ≤ mi) (hmi2 : mi ≤ 59) (hs1 : 0 ≤ s) (hs2 : s ≤ 60) :
    parseTimeFields (natDec y.toNat ++ '-' :: (pad2 mo ++ '-' :: (pad2 d ++
      ' ' :: (pad2 h ++ ':' :: (pad2 mi ++ ':' :: (pad2 s ++ r)))))) =
      some ({ year := y, mon := mo, mday := d, hour := h, minute := mi, sec := s }, r) := by
  have hyv : decValue (natDec y.toNat) = y.toNat := decValue_natDec _
  simp only [parseTimeFields]
  rw [skipWs_head_not _ (natDec_ne_nil _) (fun c hc => isDig_not_spc (natDec_digits _ c hc)),
    readBounded_run 0 9999 4 _ _ (natDec_digits _) (natDec_ne_nil _)
      (natDec_len4 _ (by omega) (by omega)) (by omega) (by omega)]
  simp only [optBind_some, expectCh_cons]
  rw [readBounded_run 1 12 2 _ _ (pad2_digits _) (pad2_ne_nil _)
    (pad2_len _ (by omega) (by omega)) (by rw [pad2_value]; omega)
    (by rw [pad2_value]; omega)]
  simp only [optBind_some, expectCh_cons]
  rw [readBounded_run 1 31 2 _ _ (pad2_digits _) (pad2_ne_nil _)
    (pad2_len _ (by omega) (by omega)) (by rw [pad2_value]; omega)
    (by rw [pad2_value]; omega)]
  simp only [optBind_some]
  rw [skipWs_cons_spc _ (by decide),
    skipWs_head_not _ (pad2_ne_nil _) (fun c hc => isDig_not_spc (pad2_digits _ c hc)),
    readBounded_run 0 23 2 _ _ (pad2_digits _) (pad2_ne_nil _)
      (pad2_len _ (by omega) (by omega)) (by omega) (by rw [pad2_value]; omega)]
  simp only [optBind_some, expectCh_cons]
  rw [readBounded_run 0 59 2 _ _ (pad2_digits _) (pad2_ne_nil _)
    (pad2_len _ (by omega) (by omega)) (by omega) (by rw [pad2_value]; omega)]
  simp only [optBind_some, expectCh_cons]
  rw [readBounded_run 0 60 2 _ _ (pad2_digits _) (pad2_ne_nil _)
    (pad2_len _ (by omega) (by omega)) (by omega) (by rw [pad2_value]; omega)]
  simp only [optBind_some]
  have hc : ∀ a : Int, 0 ≤ a → ((a.toNat : Int)) = a := fun a ha => Int.toNat_of_nonneg ha
  rw [hyv, pad2_value, pad2_value, pad2_value, pad2_value, pad2_value]
  simp only [hc y (by omega), hc mo (by omega), hc d (by omega), hc h (by omega),
    hc mi (by omega), hc s (by omega)]

theorem parseTimeFields_timeChars (z : Int) (h0 : 0 ≤ z) (h1 : z < 253402300800)
    (r : Chars) :
    parseTimeFields (timeChars z ++ r) = some (gmtimeM z, r) := by
  obtain ⟨y1, y2, m1, m2, d1, d2, hh1, hh2, mi1, mi2, s1, s2, hround⟩ := time_inv z h0 h1
  have hi : intDec (gmtimeM z).year = natDec (gmtimeM z).year.toNat :=
    intDec_nonneg _ (by omega)
  have hsh : timeChars z ++ r = natDec (gmtimeM z).year.toNat ++
      '-' :: (pad2 (gmtimeM z).mon ++ '-' :: (pad2 (gmtimeM z).mday ++
      ' ' :: (pad2 (gmtimeM z).hour ++ ':' :: (pad2 (gmtimeM z).minute ++
      ':' :: (pad2 (gmtimeM z).sec ++ r))))) := by
    simp only [timeChars, hi, List.append_assoc, List.cons_append]
  rw [hsh, parseTimeFields_build _ _ _ _ _ _ _ (by omega) y2 m1 m2 d1 d2 hh1 hh2
    mi1 mi2 s1 (by omega)]

/-! ## The header of a line parses back to its fields -/

theorem readFrom_build (e : FilesystemElement) (tail : Chars)
    (hus : isTokB e.us = true) (hgs : isTokB e.gs = true) (hper : e.per < 512)
    (hmt0 : 0 ≤ e.mt) (hmt1 : e.mt < 253402300800) :
    readFrom ⟨permChars e ++ ' ' :: (e.us.data ++ ' ' :: (e.gs.data ++
      ' ' :: (timeChars e.mt ++ tail)))⟩ =
      readFromTail e.ty e.per e.us e.gs e.mt tail := by
  obtain ⟨y1, y2, m1, m2, d1, d2, hh1, hh2, mi1, mi2, s1, s2, hround⟩ :=
    time_inv e.mt hmt0 hmt1
  have hd : (⟨permChars e ++ ' ' :: (e.us.data ++ ' ' :: (e.gs.data ++
      ' ' :: (timeChars e.mt ++ tail)))⟩ : String).data =
      permChars e ++ ' ' :: (e.us.data ++ ' ' :: (e.gs.data ++
      ' ' :: (timeChars e.mt ++ tail))) := rfl
  simp only [readFrom, hd]
  rw [readToken_list (permChars e) _ (permChars_ne_nil e) (permChars_not_spc e)
    (by decide)]
  have hlen : (⟨permChars e⟩ : String).length = 10 := by
    show (permChars e).length = 10
    exact permChars_len e
  simp only [hlen, if_neg (by omega : ¬(10 : Nat) ≠ 10), parsePerm_permChars e hper]
  rw [readToken_spc _ (by decide),
    readToken_list e.us.data _ (isTok_ne_nil hus) (isTok_not_spc hus) (by decide)]
  simp only
  rw [readToken_spc _ (by decide),
    readToken_list e.gs.data _ (isTok_ne_nil hgs) (isTok_not_spc hgs) (by decide)]
  simp only
  rw [parseTimeFields_spc _ (by decide), parseTimeFields_timeChars e.mt hmt0 hmt1]
  simp only [hround]
/-! ## The tail of a written line parses back -/

theorem readQuoted_end (s : String) : readQuoted (quoteChars s) = some (s, []) := by
  have h := readQuoted_app s []
  simpa using h

theorem wfElem_parts (e : FilesystemElement) (h : wfElem e = true) :
    isTokB e.us = true ∧ isTokB e.gs = true ∧ 0 ≤ e.mt ∧ e.mt < 253402300800 ∧
    e.per < 512 := by
  simp only [wfElem, Bool.and_eq_true, decide_eq_true_eq] at h
  exact ⟨h.1.1.1.1.1, h.1.1.1.1.2, h.1.1.1.2, h.1.1.2, h.1.2⟩

theorem readFromTail_ok (e : FilesystemElement) (hwf : wfElem e = true) :
    readFromTail e.ty e.per e.us e.gs e.mt
      (" +0000".data ++ ' ' :: typeFields e e.fileHash) =
      .ok { e with hardLinkCnt := 1 } := by
  obtain ⟨hus, hgs, hmt0, hmt1, hper⟩ := wfElem_parts e hwf
  rcases e with ⟨ty, per, us, gs, mt, sz, fileHash, rp, symlink, hlc⟩
  simp only at hus hgs hmt0 hmt1 hper
  have hoffd : (" +0000" : String).data = [' ', '+', '0', '0', '0', '0'] := rfl
  simp only [readFromTail, hoffd]
  rw [if_neg (by omega : ¬(mt = -1)), if_neg (by simp : ¬([' ', '+', '0', '0',
    '0', '0'] ++ ' ' :: typeFields _ fileHash).length < 6)]
  rw [show (6 : Nat) = ([' ', '+', '0', '0', '0', '0'] : Chars).length from rfl,
    List.take_left, List.drop_left, if_neg (by decide : ¬(⟨[' ', '+', '0', '0',
    '0', '0']⟩ : String) ≠ " +0000")]
  cases ty with
  | regular =>
    simp only [wfElem, Bool.and_eq_true, decide_eq_true_eq] at hwf
    obtain ⟨⟨⟨hsz, hhl⟩, hht⟩, hsl⟩ := hwf.2
    simp only [typeFields]
    rw [readInt_spc _ (by decide), intDec_nonneg _ hsz,
      readInt_natDec _ _ (by decide)]
    simp only
    rw [readToken_spc _ (by decide),
      readToken_list fileHash.data _ (isTok_ne_nil hht) (isTok_not_spc hht)
        (by decide)]
    simp only
    rw [if_neg (by
      show ¬(⟨fileHash.data⟩ : String).length ≠ 40
      show ¬fileHash.length ≠ 40
      omega)]
    simp only [finishPath]
    rw [readQuoted_spc _ (by decide), readQuoted_end]
    simp only [List.isEmpty_nil, if_true]
    rw [Int.toNat_of_nonneg hsz]
    rw [hsl]
    rfl
  | symlink =>
    simp only [wfElem, Bool.and_eq_true, decide_eq_true_eq] at hwf
    obtain ⟨hsz, hhl⟩ := hwf.2
    simp only [typeFields]
    rw [readQuoted_spc _ (by decide), readQuoted_app]
    simp only [finishPath]
    rw [readQuoted_spc _ (by decide), readQuoted_end]
    simp only [List.isEmpty_nil, if_true]
    rw [hsz, hhl]
    rfl
  | directory =>
    simp only [wfElem, Bool.and_eq_true, decide_eq_true_eq] at hwf
    obtain ⟨⟨hsz, hhl⟩, hsl⟩ := hwf.2
    simp only [typeFields, finishPath]
    rw [readQuoted_spc _ (by decide), readQuoted_end]
    simp only [List.isEmpty_nil, if_true]
    rw [hsz, hhl, hsl]
    rfl
  | unknown =>
    simp only [wfElem, Bool.and_eq_true, decide_eq_true_eq] at hwf
    obtain ⟨⟨hsz, hhl⟩, hsl⟩ := hwf.2
    simp only [typeFields, finishPath]
    rw [readQuoted_spc _ (by decide), readQuoted_end]
    simp only [List.isEmpty_nil, if_true]
    rw [hsz, hhl, hsl]
    rfl

/-- The full encode-then-decode round trip on one record: decoding the
line `writeTo` produces yields the record back, with the hard-link count
reset to 1. -/
theorem writeLine_roundtrip (e : FilesystemElement) (h : wfElem e = true) :
    readFrom ⟨writeLine e⟩ = .ok { e with hardLinkCnt := 1 } := by
  obtain ⟨hus, hgs, hmt0, hmt1, hper⟩ := wfElem_parts e h
  show readFrom ⟨writeLineG e " +0000" e.fileHash⟩ = _
  simp only [writeLineG]
  rw [readFrom_build e (" +0000".data ++ ' ' :: typeFields e e.fileHash) hus hgs
    hper hmt0 hmt1]
  exact readFromTail_ok e h

/-! ## Strictness of the decoder -/

/-- Syntactic well-formedness of a 10-character permission string, read
off the documented line grammar: a type character `-`/`d`/`l`/`?`
followed by three `rwx` triples with `-` for unset bits. -/
def permOkB (p : String) : Bool :=
  match p.data with
  | [c0, c1, c2, c3, c4, c5, c6, c7, c8, c9] =>
    (c0 == '-' || c0 == 'd' || c0 == 'l' || c0 == '?') &&
    (c1 == 'r' || c1 == '-') && (c2 == 'w' || c2 == '-') && (c3 == 'x' || c3 == '-') &&
    (c4 == 'r' || c4 == '-') && (c5 == 'w' || c5 == '-') && (c6 == 'x' || c6 == '-') &&
    (c7 == 'r' || c7 == '-') && (c8 == 'w' || c8 == '-') && (c9 == 'x' || c9 == '-')
  | _ => false

theorem tyOfChar_sound {c : Char} {ty : FileTy} (h : tyOfChar c = .ok ty) :
    (c == '-' || c == 'd' || c == 'l' || c == '?') = true := by
  simp only [tyOfChar] at h
  split_ifs at h <;> simp_all

theorem triVal_sound {a b c : Char} {v : Nat} (h : triVal a b c = .ok v) :
    ((a == 'r' || a == '-') && (b == 'w' || b == '-') && (c == 'x' || c == '-')) = true := by
  simp only [triVal] at h
  by_cases g1 : a ≠ 'r' ∧ a ≠ '-'
  · rw [if_pos g1] at h
    exact absurd h (by simp)
  by_cases g2 : b ≠ 'w' ∧ b ≠ '-'
  · rw [if_neg g1, if_pos g2] at h
    exact absurd h (by simp)
  by_cases g3 : c ≠ 'x' ∧ c ≠ '-'
  · rw [if_neg g1, if_neg g2, if_pos g3] at h
    exact absurd h (by simp)
  push_neg at g1 g2 g3
  simp only [Bool.and_eq_true, Bool.or_eq_true, beq_iff_eq]
  refine ⟨⟨?_, ?_⟩, ?_⟩ <;> tauto

theorem parsePerm_sound {p : String} {ty : FileTy} {pe : Nat}
    (h : parsePerm p = .ok (ty, pe)) : p.length = 10 ∧ permOkB p = true := by
  rcases hd : p.data with _ | ⟨c0, _ | ⟨c1, _ | ⟨c2, _ | ⟨c3, _ | ⟨c4, _ |
    ⟨c5, _ | ⟨c6, _ | ⟨c7, _ | ⟨c8, _ | ⟨c9, _ | ⟨c10, rest⟩⟩⟩⟩⟩⟩⟩⟩⟩⟩⟩
  all_goals simp only [parsePerm, hd] at h
  all_goals try exact absurd h (by simp)
  have hlen : p.length = 10 := by
    show p.data.length = 10
    rw [hd]
    rfl
  refine ⟨hlen, ?_⟩
  rcases hty : tyOfChar c0 with er | ty0
  · rw [hty] at h
    exact absurd h (by simp)
  rcases ht1 : triVal c1 c2 c3 with er | t1
  · rw [hty, ht1] at h
    exact absurd h (by simp)
  rcases ht2 : triVal c4 c5 c6 with er | t2
  · rw [hty, ht1, ht2] at h
    exact absurd h (by simp)
  rcases ht3 : triVal c7 c8 c9 with er | t3
  · rw [hty, ht1, ht2, ht3] at h
    exact absurd h (by simp)
  have e0 := tyOfChar_sound hty
  have e1 := triVal_sound ht1
  have e2 := triVal_sound ht2
  have e3 := triVal_sound ht3
  simp only [permOkB, hd, Bool.and_eq_true, Bool.or_eq_true] at e0 e1 e2 e3 ⊢
  exact ⟨⟨⟨⟨⟨⟨⟨⟨⟨e0, e1.1.1⟩, e1.1.2⟩, e1.2⟩, e2.1.1⟩, e2.1.2⟩, e2.2⟩,
    e3.1.1⟩, e3.1.2⟩, e3.2⟩

/-- A line whose first token is not 10 characters long is rejected. -/
theorem readFrom_permLen (p : String) (rest : Chars) (htok : isTokB p = true)
    (hlen : p.length ≠ 10) :
    readFrom ⟨p.data ++ ' ' :: rest⟩ = .error "Error reading permission string" := by
  have hd : (⟨p.data ++ ' ' :: rest⟩ : String).data = p.data ++ ' ' :: rest := rfl
  simp only [readFrom, hd]
  rw [readToken_list p.data _ (isTok_ne_nil htok) (isTok_not_spc htok) (by decide)]
  simp only [show (⟨p.data⟩ : String) = p from rfl]
  rw [if_pos hlen]

/-- If decoding succeeds at all, the leading permission token was present,
10 characters long, and made only of the allowed characters. -/
theorem readFrom_permSound (line : String) (e : FilesystemElement)
    (h : readFrom line = .ok e) :
    ∃ p rest, readToken line.data = some (p, rest) ∧ p.length = 10 ∧
      permOkB p = true := by
  rcases hrt : readToken line.data with _ | ⟨p, rest⟩
  · simp only [readFrom, hrt] at h
    exact absurd h (by simp)
  · simp only [readFrom, hrt] at h
    by_cases hlen : p.length ≠ 10
    · rw [if_pos hlen] at h
      exact absurd h (by simp)
    · rw [if_neg hlen] at h
      rcases hpp : parsePerm p with er | ⟨ty, pe⟩
      · rw [hpp] at h
        exact absurd h (by simp)
      · exact ⟨p, rest, rfl, by omega, (parsePerm_sound hpp).2⟩

/-- A six-character UTC-offset field other than the literal `" +0000"`
makes the whole line a timestamp parse error. -/
theorem readFromTail_badOff (ty : FileTy) (pe : Nat) (us gs : String) (mt : Int)
    (off : String) (tf : Chars) (hmt : mt ≠ -1) (hoff6 : off.data.length = 6)
    (hne : off ≠ " +0000") :
    readFromTail ty pe us gs mt (off.data ++ ' ' :: tf) =
      .error "Error reading mtime" := by
  simp only [readFromTail]
  rw [if_neg hmt,
    if_neg (by simp [List.length_append, hoff6] : ¬(off.data ++ ' ' :: tf).length < 6),
    show (6 : Nat) = off.data.length from hoff6.symm, List.take_left,
    show (⟨off.data⟩ : String) = off from rfl, if_pos hne]

/-- A regular-file line whose hash field is not 40 characters long is
rejected. -/
theorem readFromTail_badHash (e : FilesystemElement) (hash : String)
    (hwf : wfElem e = true) (hty : e.ty = .regular) (htok : isTokB hash = true)
    (hlen : hash.length ≠ 40) :
    readFromTail e.ty e.per e.us e.gs e.mt
      (" +0000".data ++ ' ' :: typeFields e hash) = .error "Error reading hash" := by
  obtain ⟨hus, hgs, hmt0, hmt1, hper⟩ := wfElem_parts e hwf
  rcases e with ⟨ty, per, us, gs, mt, sz, fileHash, rp, symlink, hlc⟩
  simp only at hus hgs hmt0 hmt1 hper hty
  have hoffd : (" +0000" : String).data = [' ', '+', '0', '0', '0', '0'] := rfl
  simp only [readFromTail, hoffd]
  rw [if_neg (by omega : ¬(mt = -1)), if_neg (by simp : ¬([' ', '+', '0', '0',
    '0', '0'] ++ ' ' :: typeFields _ hash).length < 6)]
  rw [show (6 : Nat) = ([' ', '+', '0', '0', '0', '0'] : Chars).length from rfl,
    List.take_left, List.drop_left, if_neg (by decide : ¬(⟨[' ', '+', '0', '0',
    '0', '0']⟩ : String) ≠ " +0000")]
  cases ty with
  | regular =>
    simp only [wfElem, Bool.and_eq_true, decide_eq_true_eq] at hwf
    obtain ⟨⟨⟨hsz, hhl⟩, hht⟩, hsl⟩ := hwf.2
    simp only [typeFields]
    rw [readInt_spc _ (by decide), intDec_nonneg _ hsz,
      readInt_natDec _ _ (by decide)]
    simp only
    rw [readToken_spc _ (by decide),
      readToken_list hash.data _ (isTok_ne_nil htok) (isTok_not_spc htok)
        (by decide)]
    simp only
    rw [if_pos (by
      show (⟨hash.data⟩ : String).length ≠ 40
      show hash.length ≠ 40
      omega)]
  | symlink => simp at hty
  | directory => simp at hty
  | unknown => simp at hty

/-- Any characters left after the quoted path field are rejected. -/
theorem readFromTail_extra (e : FilesystemElement) (extra : Chars)
    (hwf : wfElem e = true) :
    readFromTail e.ty e.per e.us e.gs e.mt
      (" +0000".data ++ ' ' :: (typeFields e e.fileHash ++ ' ' :: extra)) =
      .error "Extra characters at end of line" := by
  obtain ⟨hus, hgs, hmt0, hmt1, hper⟩ := wfElem_parts e hwf
  rcases e with ⟨ty, per, us, gs, mt, sz, fileHash, rp, symlink, hlc⟩
  simp only at hus hgs hmt0 hmt1 hper
  have hoffd : (" +0000" : String).data = [' ', '+', '0', '0', '0', '0'] := rfl
  simp only [readFromTail, hoffd]
  rw [if_neg (by omega : ¬(mt = -1)), if_neg (by simp : ¬([' ', '+', '0', '0',
    '0', '0'] ++ ' ' :: (typeFields _ fileHash ++ ' ' :: extra)).length < 6)]
  rw [show (6 : Nat) = ([' ', '+', '0', '0', '0', '0'] : Chars).length from rfl,
    List.take_left, List.drop_left, if_neg (by decide : ¬(⟨[' ', '+', '0', '0',
    '0', '0']⟩ : String) ≠ " +0000")]
  cases ty with
  | regular =>
    simp only [wfElem, Bool.and_eq_true, decide_eq_true_eq] at hwf
    obtain ⟨⟨⟨hsz, hhl⟩, hht⟩, hsl⟩ := hwf.2
    simp only [typeFields, List.append_assoc, List.cons_append]
    rw [readInt_spc _ (by decide), intDec_nonneg _ hsz,
      readInt_natDec _ _ (by decide)]
    simp only
    rw [readToken_spc _ (by decide),
      readToken_list fileHash.data _ (isTok_ne_nil hht) (isTok_not_spc hht)
        (by decide)]
    simp only
    rw [if_neg (by
      show ¬(⟨fileHash.data⟩ : String).length ≠ 40
      show ¬fileHash.length ≠ 40
      omega)]
    simp only [finishPath]
    rw [readQuoted_spc _ (by decide), readQuoted_app]
    simp

  | symlink =>
    simp only [typeFields, List.append_assoc, List.cons_append]
    rw [readQuoted_spc _ (by decide), readQuoted_app]
    simp only [finishPath]
    rw [readQuoted_spc _ (by decide), readQuoted_app]
    simp
  | directory =>
    simp only [typeFields, finishPath]
    rw [readQuoted_spc _ (by decide), readQuoted_app]
    simp
  | unknown =>
    simp only [typeFields, finishPath]
    rw [readQuoted_spc _ (by decide), readQuoted_app]
    simp

/-- A header followed by text the timestamp parser rejects makes the line
a timestamp parse error. -/
theorem readFrom_badTime (e : FilesystemElement) (tail : Chars)
    (hus : isTokB e.us = true) (hgs : isTokB e.gs = true) (hper : e.per < 512)
    (htf : parseTimeFields tail = none) :
    readFrom ⟨permChars e ++ ' ' :: (e.us.data ++ ' ' :: (e.gs.data ++
      ' ' :: tail))⟩ = .error "Error reading mtime" := by
  have hd : (⟨permChars e ++ ' ' :: (e.us.data ++ ' ' :: (e.gs.data ++
      ' ' :: tail))⟩ : String).data = permChars e ++ ' ' :: (e.us.data ++
      ' ' :: (e.gs.data ++ ' ' :: tail)) := rfl
  simp only [readFrom, hd]
  rw [readToken_list (permChars e) _ (permChars_ne_nil e) (permChars_not_spc e)
    (by decide)]
  have hlen : (⟨permChars e⟩ : String).length = 10 := by
    show (permChars e).length = 10
    exact permChars_len e
  simp only [hlen, if_neg (by omega : ¬(10 : Nat) ≠ 10), parsePerm_permChars e hper]
  rw [readToken_spc _ (by decide),
    readToken_list e.us.data _ (isTok_ne_nil hus) (isTok_not_spc hus) (by decide)]
  simp only
  rw [readToken_spc _ (by decide),
    readToken_list e.gs.data _ (isTok_ne_nil hgs) (isTok_not_spc hgs) (by decide)]
  simp only
  rw [parseTimeFields_spc _ (by decide), htf]

/-! ## The ordering on filesystem elements

`operator<` on `FilesystemElement` compares directory status first and
then the `relativePath` fields, which are `std::filesystem::path`
values: path comparison is lexicographic over the slash-separated
components, each component compared as a native byte string.  We embed
that library order here for relative paths free of repeated
separators (the only paths the program ever stores). -/

/-- Byte order on characters, as native `std::string` comparison sees
them (code-point order; snapshot paths are byte strings). -/
def charLtB (a b : Char) : Bool := decide (a.toNat < b.toNat)

/-- `std::lexicographical_compare`: lexicographic order on lists lifted
from a strict order on the elements. -/
def lexLt {α : Type} (lt : α → α → Bool) : List α → List α → Bool
  | _, [] => false
  | [], _ :: _ => true
  | a :: as, b :: bs => if lt a b then true else if lt b a then false else lexLt lt as bs

/-- Split a path string into its slash-separated components, as
`std::filesystem::path` decomposes a relative path. -/
def splitSlash : Chars → List Chars
  | [] => [[]]
  | c :: cs =>
    if c = '/' then [] :: splitSlash cs
    else
      match splitSlash cs with
      | [] => [[c]]
      | comp :: rest => (c :: comp) :: rest

/-- Rejoin components with `/`; inverse of `splitSlash`. -/
def joinSlash : List Chars → Chars
  | [] => []
  | [c] => c
  | c :: r :: rest => c ++ '/' :: joinSlash (r :: rest)

/-- `std::filesystem::path::operator<` on relative paths: lexicographic
over components, components compared byte-wise. -/
def pathLt (a b : String) : Bool :=
  lexLt (lexLt charLtB) (splitSlash a.data) (splitSlash b.data)

/-- `FilesystemElement::isDirectory()`. -/
def dirB (e : FilesystemElement) : Bool := e.ty == .directory

/-- `operator<(const FilesystemElement&, const FilesystemElement&)`:
directories first, then by relative path. -/
def ltElem (a b : FilesystemElement) : Bool :=
  if dirB a = dirB b then pathLt a.rp b.rp else dirB a && !dirB b

/-- Plain byte-wise lexicographic comparison of whole path strings;
this is the order the spec's words describe for `relativePath`. -/
def strLexLt (a b : String) : Bool := lexLt charLtB a.data b.data

/-- Stable insertion of `x` into a list sorted by `lt`: `x` goes before
the first element not strictly below it. -/
def insertLe {α : Type} (lt : α → α → Bool) (x : α) : List α → List α
  | [] => [x]
  | y :: ys => if lt y x then y :: insertLe lt x ys else x :: y :: ys

/-- Stable insertion sort by `lt`; models `std::list::sort` (stable)
over the strict weak order `operator<`. -/
def isort {α : Type} (lt : α → α → Bool) : List α → List α
  | [] => []
  | x :: xs => insertLe lt x (isort lt xs)

/-! ### Order theory of `lexLt` -/

theorem lexLt_irrefl {α : Type} (lt : α → α → Bool) (hirr : ∀ a, lt a a = false) :
    ∀ l, lexLt lt l l = false := by
  intro l
  induction l with
  | nil => rfl
  | cons a as ih => simp [lexLt, hirr a, ih]

theorem lexLt_trans {α : Type} (lt : α → α → Bool)
    (htr : ∀ a b c, lt a b = true → lt b c = true → lt a c = true)
    (hconn : ∀ a b, lt a b = false → lt b a = false → a = b) :
    ∀ l m n, lexLt lt l m = true → lexLt lt m n = true → lexLt lt l n = true := by
  intro l
  induction l with
  | nil =>
    intro m n h1 h2
    cases m with
    | nil => exact h2
    | cons b bs =>
      cases n with
      | nil => exact absurd h2 (by simp [lexLt])
      | cons c cs => rfl
  | cons a as ih =>
    intro m n h1 h2
    cases m with
    | nil => exact absurd h1 (by simp [lexLt])
    | cons b bs =>
      cases n with
      | nil => exact absurd h2 (by simp [lexLt])
      | cons c cs =>
        simp only [lexLt] at h1 h2 ⊢
        by_cases hab : lt a b = true
        · by_cases hbc : lt b c = true
          · rw [if_pos (htr a b c hab hbc)]
          · rw [if_neg (by simp [hbc]) ] at h2
            by_cases hcb : lt c b = true
            · rw [if_pos hcb] at h2
              exact absurd h2 (by simp)
            · have hbc' : b = c := hconn b c (by simp [hbc]) (by simp [hcb])
              subst hbc'
              rw [if_pos hab]
        · rw [if_neg (by simp [hab])] at h1
          by_cases hba : lt b a = true
          · rw [if_pos hba] at h1
            exact absurd h1 (by simp)
          · have hab' : a = b := hconn a b (by simp [hab]) (by simp [hba])
            subst hab'
            by_cases hac : lt a c = true
            · rw [if_pos hac]
            · rw [if_neg (by simp [hac])] at h2 ⊢
              by_cases hca : lt c a = true
              · rw [if_pos hca] at h2
                exact absurd h2 (by simp)
              · rw [if_neg (by simp [hca])] at h2 ⊢
                rw [if_neg (by simp [hba])] at h1
                exact ih bs cs h1 h2

theorem lexLt_conn {α : Type} (lt : α → α → Bool)
    (hconn : ∀ a b, lt a b = false → lt b a = false → a = b) :
    ∀ l m, lexLt lt l m = false → lexLt lt m l = false → l = m := by
  intro l
  induction l with
  | nil =>
    intro m h1 h2
    cases m with
    | nil => rfl
    | cons b bs => exact absurd h1 (by simp [lexLt])
  | cons a as ih =>
    intro m h1 h2
    cases m with
    | nil => exact absurd h2 (by simp [lexLt])
    | cons b bs =>
      simp only [lexLt] at h1 h2
      by_cases hab : lt a b = true
      · rw [if_pos hab] at h1
        exact absurd h1 (by simp)
      · by_cases hba : lt b a = true
        · rw [if_pos hba] at h2
          exact absurd h2 (by simp)
        · have he : a = b := hconn a b (by simp [hab]) (by simp [hba])
          subst he
          rw [if_neg (by simp [hab]), if_neg (by simp [hba])] at h1 h2
          rw [ih bs h1 h2]

theorem lexLt_asymm {α : Type} (lt : α → α → Bool) (hirr : ∀ a, lt a a = false)
    (htr : ∀ a b c, lt a b = true → lt b c = true → lt a c = true)
    (hconn : ∀ a b, lt a b = false → lt b a = false → a = b) :
    ∀ l m, lexLt lt l m = true → lexLt lt m l = false := by
  intro l m h1
  by_contra h2
  have h2' : lexLt lt m l = true := by
    cases hx : lexLt lt m l
    · exact absurd hx h2
    · rfl
  have := lexLt_trans lt htr hconn l m l h1 h2'
  rw [lexLt_irrefl lt hirr l] at this
  exact absurd this (by simp)

theorem lexLt_negtrans {α : Type} (lt : α → α → Bool)
    (htr : ∀ a b c, lt a b = true → lt b c = true → lt a c = true)
    (hconn : ∀ a b, lt a b = false → lt b a = false → a = b) :
    ∀ l m n, lexLt lt l m = false → lexLt lt m n = false → lexLt lt l n = false := by
  intro l m n h1 h2
  by_contra h3
  have h3' : lexLt lt l n = true := by
    cases hx : lexLt lt l n
    · exact absurd hx h3
    · rfl
  by_cases hml : lexLt lt m l = true
  · have := lexLt_trans lt htr hconn m l n hml h3'
    rw [h2] at this
    exact absurd this (by simp)
  · have hml' : lexLt lt m l = false := by
      cases hx : lexLt lt m l
      · rfl
      · exact absurd hx hml
    have he : l = m := lexLt_conn lt hconn l m h1 hml'
    subst he
    rw [h2] at h3'
    exact absurd h3' (by simp)

/-! ### The character and path orders satisfy the axioms -/

theorem charLtB_irrefl (a : Char) : charLtB a a = false := by
  simp [charLtB]

theorem charLtB_trans (a b c : Char) (h1 : charLtB a b = true)
    (h2 : charLtB b c = true) : charLtB a c = true := by
  simp only [charLtB, decide_eq_true_eq] at h1 h2 ⊢
  omega

theorem charLtB_conn (a b : Char) (h1 : charLtB a b = false)
    (h2 : charLtB b a = false) : a = b := by
  simp only [charLtB, decide_eq_false_iff_not, not_lt] at h1 h2
  have hn : a.toNat = b.toNat := by omega
  exact Char.ext (UInt32.ext hn)

theorem strLt_irrefl (l : Chars) : lexLt charLtB l l = false :=
  lexLt_irrefl charLtB charLtB_irrefl l

theorem strLt_trans (l m n : Chars) (h1 : lexLt charLtB l m = true)
    (h2 : lexLt charLtB m n = true) : lexLt charLtB l n = true :=
  lexLt_trans charLtB charLtB_trans charLtB_conn l m n h1 h2

theorem strLt_conn (l m : Chars) (h1 : lexLt charLtB l m = false)
    (h2 : lexLt charLtB m l = false) : l = m :=
  lexLt_conn charLtB charLtB_conn l m h1 h2

theorem splitSlash_ne_nil (s : Chars) : splitSlash s ≠ [] := by
  cases s with
  | nil => simp [splitSlash]
  | cons c cs =>
    simp only [splitSlash]
    split_ifs
    · simp
    · cases splitSlash cs <;> simp

theorem joinSlash_cons_cons (c : Char) (comp : Chars) (rest : List Chars) :
    joinSlash ((c :: comp) :: rest) = c :: joinSlash (comp :: rest) := by
  cases rest with
  | nil => rfl
  | cons r rs => simp [joinSlash]

theorem joinSlash_split (s : Chars) : joinSlash (splitSlash s) = s := by
  induction s with
  | nil => rfl
  | cons c cs ih =>
    simp only [splitSlash]
    by_cases hc : c = '/'
    · rw [if_pos hc]
      obtain ⟨x, xs, hx⟩ : ∃ x xs, splitSlash cs = x :: xs := by
        cases hd : splitSlash cs with
        | nil => exact absurd hd (splitSlash_ne_nil cs)
        | cons x xs => exact ⟨x, xs, rfl⟩
      rw [hx]
      show joinSlash ([] :: x :: xs) = c :: cs
      rw [show joinSlash ([] :: x :: xs) = '/' :: joinSlash (x :: xs) from rfl,
        ← hx, ih, hc]
    · rw [if_neg hc]
      obtain ⟨x, xs, hx⟩ : ∃ x xs, splitSlash cs = x :: xs := by
        cases hd : splitSlash cs with
        | nil => exact absurd hd (splitSlash_ne_nil cs)
        | cons x xs => exact ⟨x, xs, rfl⟩
      rw [hx, joinSlash_cons_cons, ← hx, ih]

theorem splitSlash_inj (a b : Chars) (h : splitSlash a = splitSlash b) : a = b := by
  rw [← joinSlash_split a, h, joinSlash_split]

theorem pathLt_irrefl (a : String) : pathLt a a = false := by
  simp only [pathLt]
  exact lexLt_irrefl (lexLt charLtB) strLt_irrefl _

theorem pathLt_trans (a b c : String) (h1 : pathLt a b = true)
    (h2 : pathLt b c = true) : pathLt a c = true := by
  simp only [pathLt] at h1 h2 ⊢
  exact lexLt_trans (lexLt charLtB) strLt_trans strLt_conn _ _ _ h1 h2

theorem pathLt_conn (a b : String) (h1 : pathLt a b = false)
    (h2 : pathLt b a = false) : a = b := by
  simp only [pathLt] at h1 h2
  have hsp := lexLt_conn (lexLt charLtB) strLt_conn _ _ h1 h2
  have hd : a.data = b.data := splitSlash_inj _ _ hsp
  have ha : (⟨a.data⟩ : String) = a := rfl
  have hb : (⟨b.data⟩ : String) = b := rfl
  rw [← ha, ← hb, hd]

theorem pathLt_negtrans (a b c : String) (h1 : pathLt a b = false)
    (h2 : pathLt b c = false) : pathLt a c = false := by
  simp only [pathLt] at h1 h2 ⊢
  exact lexLt_negtrans (lexLt charLtB) strLt_trans strLt_conn _ _ _ h1 h2

theorem pathLt_asymm (a b : String) (h : pathLt a b = true) : pathLt b a = false := by
  simp only [pathLt] at h ⊢
  exact lexLt_asymm (lexLt charLtB) strLt_irrefl strLt_trans strLt_conn _ _ h

/-! ### Order theory of `ltElem` -/

theorem ltElem_irrefl (a : FilesystemElement) : ltElem a a = false := by
  simp [ltElem, pathLt_irrefl]

theorem ltElem_dirFirst (a b : FilesystemElement) (ha : dirB a = true)
    (hb : dirB b = false) : ltElem a b = true := by
  simp [ltElem, ha, hb]

theorem ltElem_trans (a b c : FilesystemElement) (h1 : ltElem a b = true)
    (h2 : ltElem b c = true) : ltElem a c = true := by
  simp only [ltElem] at h1 h2 ⊢
  by_cases hab : dirB a = dirB b
  · rw [if_pos hab] at h1
    by_cases hbc : dirB b = dirB c
    · rw [if_pos hbc] at h2
      rw [if_pos (hab.trans hbc)]
      exact pathLt_trans _ _ _ h1 h2
    · rw [if_neg hbc] at h2
      simp only [Bool.and_eq_true, Bool.not_eq_true'] at h2
      rw [if_neg (by rw [hab]; exact hbc)]
      simp only [Bool.and_eq_true, Bool.not_eq_true']
      exact ⟨by rw [hab]; exact h2.1, h2.2⟩
  · rw [if_neg hab] at h1
    simp only [Bool.and_eq_true, Bool.not_eq_true'] at h1
    by_cases hbc : dirB b = dirB c
    · rw [if_neg (by rw [← hbc]; exact hab)]
      simp only [Bool.and_eq_true, Bool.not_eq_true']
      exact ⟨h1.1, by rw [← hbc]; exact h1.2⟩
    · rw [if_neg hbc] at h2
      simp only [Bool.and_eq_true, Bool.not_eq_true'] at h2
      rw [h2.1] at h1
      exact absurd h1.2 (by simp)

theorem ltElem_conn (a b : FilesystemElement) (h1 : ltElem a b = false)
    (h2 : ltElem b a = false) : dirB a = dirB b ∧ a.rp = b.rp := by
  simp only [ltElem] at h1 h2
  by_cases hd : dirB a = dirB b
  · rw [if_pos hd] at h1
    rw [if_pos hd.symm] at h2
    exact ⟨hd, pathLt_conn _ _ h1 h2⟩
  · rw [if_neg hd] at h1
    rw [if_neg (fun he => hd he.symm)] at h2
    cases hab : dirB a <;> cases hbb : dirB b
    · exact absurd (hab.trans hbb.symm) hd
    · rw [hbb, hab] at h2
      exact absurd h2 (by simp)
    · rw [hab, hbb] at h1
      exact absurd h1 (by simp)
    · exact absurd (hab.trans hbb.symm) hd

theorem ltElem_asymm (a b : FilesystemElement) (h : ltElem a b = true) :
    ltElem b a = false := by
  simp only [ltElem] at h ⊢
  by_cases hd : dirB a = dirB b
  · rw [if_pos hd] at h
    rw [if_pos hd.symm]
    exact pathLt_asymm _ _ h
  · rw [if_neg hd] at h
    simp only [Bool.and_eq_true, Bool.not_eq_true'] at h
    rw [if_neg (fun he => hd he.symm)]
    simp [h.2]

theorem ltElem_congr_left (a a' b : FilesystemElement) (hd : dirB a = dirB a')
    (hp : a.rp = a'.rp) : ltElem a b = ltElem a' b := by
  simp [ltElem, hd, hp]

theorem ltElem_negtrans (a b c : FilesystemElement) (h1 : ltElem a b = false)
    (h2 : ltElem b c = false) : ltElem a c = false := by
  by_contra h3
  have h3' : ltElem a c = true := by
    cases hx : ltElem a c
    · exact absurd hx h3
    · rfl
  by_cases hba : ltElem b a = true
  · have := ltElem_trans b a c hba h3'
    rw [h2] at this
    exact absurd this (by simp)
  · have hba' : ltElem b a = false := by
      cases hx : ltElem b a
      · rfl
      · exact absurd hx hba
    obtain ⟨hd, hp⟩ := ltElem_conn a b h1 hba'
    rw [ltElem_congr_left a b c hd hp] at h3'
    rw [h2] at h3'
    exact absurd h3' (by simp)

/-! ### Permutation and sortedness of the insertion sort -/

theorem insertLe_perm {α : Type} (lt : α → α → Bool) (x : α) :
    ∀ l : List α, (insertLe lt x l).Perm (x :: l) := by
  intro l
  induction l with
  | nil => exact List.Perm.refl _
  | cons y ys ih =>
    simp only [insertLe]
    by_cases hyx : lt y x = true
    · rw [if_pos hyx]
      exact (ih.cons y).trans (List.Perm.swap x y ys)
    · rw [if_neg hyx]

theorem isort_perm {α : Type} (lt : α → α → Bool) :
    ∀ l : List α, (isort lt l).Perm l := by
  intro l
  induction l with
  | nil => exact List.Perm.refl _
  | cons x xs ih =>
    simp only [isort]
    exact (insertLe_perm lt x (isort lt xs)).trans (ih.cons x)

theorem insertLe_pairwise {α : Type} (lt : α → α → Bool)
    (hasym : ∀ a b, lt a b = true → lt b a = false)
    (hneg : ∀ a b c, lt a b = false → lt b c = false → lt a c = false)
    (x : α) : ∀ l : List α, l.Pairwise (fun a b => lt b a = false) →
    (insertLe lt x l).Pairwise (fun a b => lt b a = false) := by
  intro l
  induction l with
  | nil =>
    intro _
    simp [insertLe]
  | cons y ys ih =>
    intro hl
    obtain ⟨hy, hys⟩ := List.pairwise_cons.mp hl
    simp only [insertLe]
    by_cases hyx : lt y x = true
    · rw [if_pos hyx]
      refine List.pairwise_cons.mpr ⟨?_, ih hys⟩
      intro z hz
      rcases List.mem_cons.mp ((insertLe_perm lt x ys).mem_iff.mp hz) with hz1 | hz2
      · rw [hz1]
        exact hasym y x hyx
      · exact hy z hz2
    · have hyx' : lt y x = false := by
        cases hv : lt y x
        · rfl
        · exact absurd hv hyx
      rw [if_neg hyx]
      refine List.pairwise_cons.mpr ⟨?_, hl⟩
      intro z hz
      rcases List.mem_cons.mp hz with hz1 | hz2
      · rw [hz1]
        exact hyx'
      · exact hneg z y x (hy z hz2) hyx'

theorem isort_pairwise {α : Type} (lt : α → α → Bool)
    (hasym : ∀ a b, lt a b = true → lt b a = false)
    (hneg : ∀ a b c, lt a b = false → lt b c = false → lt a c = false) :
    ∀ l : List α, (isort lt l).Pairwise (fun a b => lt b a = false) := by
  intro l
  induction l with
  | nil => simp [isort]
  | cons x xs ih =>
    simp only [isort]
    exact insertLe_pairwise lt hasym hneg x (isort lt xs) ih

/-! ## The file lister (`FileLister::listFiles` / `recursiveListFiles`)

The disk is modelled as the tree of records a scan produces: each node
carries the `FilesystemElement` describing the entry (with `rp` its
path relative to the top), plus the nodes of the entries inside it when
it is a directory.  Sibling names in one directory are distinct, so
sorting the nodes by the order on their elements is the same as the
source's sorting of the element list followed by path lookup. -/

inductive FSNode where
  | mk : FilesystemElement → List FSNode → FSNode
deriving Repr

/-- The record of this entry. -/
def FSNode.e : FSNode → FilesystemElement
  | .mk e _ => e

/-- The entries contained in this entry (empty unless a directory). -/
def FSNode.children : FSNode → List FSNode
  | .mk _ cs => cs

mutual

def sizeN : FSNode → Nat
  | .mk _ cs => 1 + sizeL cs

def sizeL : List FSNode → Nat
  | [] => 0
  | c :: cs => sizeN c + sizeL cs

end

/-- `operator<` lifted to tree nodes. -/
def ltNode (a b : FSNode) : Bool := ltElem a.e b.e

/-- A child that makes `recursiveListFiles` set the `unsupported` flag:
unknown file type, or a non-directory with hard-link count other
than 1. -/
def badE (e : FilesystemElement) : Bool :=
  (e.ty == .unknown) || (!(e.ty == .directory) && decide (e.hardLinkCnt ≠ 1))

/-- One full output line of the lister: the codec line plus the
terminating newline `writeTo` appends. -/
def lineOf (e : FilesystemElement) : Chars := writeLine e ++ ['\n']

/-- The state `recursiveListFiles` threads through the walk: the output
stream text, and the `printBreak` / `unsupported` members. -/
structure LState where
  out : Chars
  printBreak : Bool
  unsupported : Bool
deriving Repr, DecidableEq

/-- `if(printBreak) os<<'\n';` -/
def sepStep (st : LState) : LState :=
  if st.printBreak then ⟨st.out ++ ['\n'], st.printBreak, st.unsupported⟩ else st

/-- The body of the first loop over the sorted children: write the
element and accumulate the unsupported flag. -/
def writeStep (st : LState) (c : FSNode) : LState :=
  ⟨st.out ++ lineOf c.e, st.printBreak, st.unsupported || badE c.e⟩

/-- One directory visit of `recursiveListFiles`: optional separator,
write the sorted children, then `printBreak=fe.empty()==false`. -/
def stepBlock (n : FSNode) (st : LState) : LState :=
  let fe := isort ltNode n.children
  let st2 := fe.foldl writeStep (sepStep st)
  ⟨st2.out, !fe.isEmpty, st2.unsupported⟩

/-- The depth-first walk of `recursiveListFiles`, as a worklist: after
a directory's block is written, its subdirectories (in sorted order)
are visited before anything that was already pending.  Fuel bounds the
number of directory visits; `sizeN` of the tree always suffices. -/
def runLF : Nat → List FSNode → LState → LState
  | 0, _, st => st
  | _ + 1, [], st => st
  | fuel + 1, n :: rest, st =>
    runLF fuel
      (((isort ltNode n.children).filter fun c => dirB c.e) ++ rest)
      (stepBlock n st)

/-- `FileLister::listFiles`: reject a non-directory top, reset
`printBreak` and `unsupported`, then walk.  `topPath` is the path text
the caller passed (used in the error message). -/
def listFiles (st : LState) (topPath : String) (top : FSNode) :
    Except String LState :=
  if dirB top.e = false then .error (topPath ++ " is not a directory")
  else .ok (runLF (sizeN top) [top] ⟨st.out, false, false⟩)

/-! ### The block structure of the lister's output

The spec describes the output as a sequence of per-directory blocks in
depth-first pre-order, children sorted.  `blocksWL` enumerates exactly
those blocks. -/

/-- The per-directory child blocks, in the walk's depth-first
pre-order. -/
def blocksWL : Nat → List FSNode → List (List FilesystemElement)
  | 0, _ => []
  | _ + 1, [] => []
  | fuel + 1, n :: rest =>
    (isort ltNode n.children).map FSNode.e ::
      blocksWL fuel (((isort ltNode n.children).filter fun c => dirB c.e) ++ rest)

/-- All blocks of one scanned tree. -/
def blocksOf (top : FSNode) : List (List FilesystemElement) :=
  blocksWL (sizeN top) [top]

/-- The text of one block: one codec line per element. -/
def blockLines : List FilesystemElement → Chars
  | [] => []
  | e :: es => lineOf e ++ blockLines es

/-- Render blocks with the separator rule the code implements: a blank
line is written before a block exactly when the previously visited
directory's block was non-empty. -/
def renderGo : List (List FilesystemElement) → Bool → Chars
  | [], _ => []
  | b :: bs, brk => (if brk then ['\n'] else []) ++ blockLines b ++ renderGo bs (!b.isEmpty)

def renderBlocks (bs : List (List FilesystemElement)) : Chars := renderGo bs false

/-- Modelled from the spec: render blocks with the separator rule as the
spec words it — every block written after the first non-empty block has
a leading blank separator line, and the very first non-empty block (and
anything before it) has none. -/
def renderSpecGo : List (List FilesystemElement) → Bool → Chars
  | [], _ => []
  | b :: bs, seen =>
    (if seen then ['\n'] else []) ++ blockLines b ++ renderSpecGo bs (seen || !b.isEmpty)

/-- Modelled from the spec: the whole serialized text under the spec's
separator rule. -/
def renderSpec (bs : List (List FilesystemElement)) : Chars := renderSpecGo bs false

/-- The final `printBreak` after a sequence of blocks. -/
def endBrk : List (List FilesystemElement) → Bool → Bool
  | [], brk => brk
  | b :: bs, _ => endBrk bs (!b.isEmpty)

/-- Whether any element of any block trips the unsupported flag. -/
def anyBad : List (List FilesystemElement) → Bool
  | [] => false
  | b :: bs => b.any badE || anyBad bs

/-! ### The walk is the block rendering -/

theorem foldl_writeStep (fe : List FSNode) : ∀ st : LState,
    fe.foldl writeStep st =
      ⟨st.out ++ blockLines (fe.map FSNode.e), st.printBreak,
       st.unsupported || (fe.map FSNode.e).any badE⟩ := by
  induction fe with
  | nil =>
    intro st
    cases st
    simp [blockLines]
  | cons c cs ih =>
    intro st
    rw [List.foldl_cons, ih]
    simp [writeStep, blockLines, Bool.or_assoc]

theorem stepBlock_spec (n : FSNode) (st : LState) :
    stepBlock n st =
      ⟨st.out ++ (if st.printBreak then ['\n'] else []) ++
         blockLines ((isort ltNode n.children).map FSNode.e),
       !((isort ltNode n.children).map FSNode.e).isEmpty,
       st.unsupported || ((isort ltNode n.children).map FSNode.e).any badE⟩ := by
  show (⟨((isort ltNode n.children).foldl writeStep (sepStep st)).out,
      !(isort ltNode n.children).isEmpty,
      ((isort ltNode n.children).foldl writeStep (sepStep st)).unsupported⟩ : LState) = _
  rw [foldl_writeStep]
  have hie : ((isort ltNode n.children).map FSNode.e).isEmpty =
      (isort ltNode n.children).isEmpty := by
    cases isort ltNode n.children <;> simp
  cases hpb : st.printBreak <;>
    simp [sepStep, hpb, hie]

theorem runLF_spec : ∀ (fuel : Nat) (ns : List FSNode) (st : LState),
    runLF fuel ns st =
      ⟨st.out ++ renderGo (blocksWL fuel ns) st.printBreak,
       endBrk (blocksWL fuel ns) st.printBreak,
       st.unsupported || anyBad (blocksWL fuel ns)⟩ := by
  intro fuel
  induction fuel with
  | zero =>
    intro ns st
    cases st
    simp [runLF, blocksWL, renderGo, endBrk, anyBad]
  | succ fuel ih =>
    intro ns st
    cases ns with
    | nil =>
      cases st
      simp [runLF, blocksWL, renderGo, endBrk, anyBad]
    | cons n rest =>
      show runLF fuel _ (stepBlock n st) = _
      rw [ih, stepBlock_spec]
      rw [show blocksWL (fuel + 1) (n :: rest) =
        (isort ltNode n.children).map FSNode.e ::
          blocksWL fuel (((isort ltNode n.children).filter fun c => dirB c.e) ++ rest)
        from rfl]
      simp only [renderGo, endBrk, anyBad]
      simp [List.append_assoc, Bool.or_assoc]

/-! ### Fuel never runs out at `sizeN` -/

theorem sizeN_pos (n : FSNode) : 1 ≤ sizeN n := by
  cases n with
  | mk e cs =>
    show 1 ≤ 1 + sizeL cs
    omega

theorem sizeL_append (a b : List FSNode) : sizeL (a ++ b) = sizeL a + sizeL b := by
  induction a with
  | nil => simp [sizeL]
  | cons c cs ih =>
    show sizeN c + sizeL (cs ++ b) = sizeN c + sizeL cs + sizeL b
    rw [ih]
    omega

theorem sizeL_insertLe (x : FSNode) : ∀ l, sizeL (insertLe ltNode x l) =
    sizeN x + sizeL l := by
  intro l
  induction l with
  | nil => rfl
  | cons y ys ih =>
    simp only [insertLe]
    by_cases hyx : ltNode y x = true
    · rw [if_pos hyx]
      show sizeN y + sizeL (insertLe ltNode x ys) = sizeN x + (sizeN y + sizeL ys)
      rw [ih]
      omega
    · rw [if_neg hyx]
      rfl

theorem sizeL_isort : ∀ l, sizeL (isort ltNode l) = sizeL l := by
  intro l
  induction l with
  | nil => rfl
  | cons x xs ih =>
    show sizeL (insertLe ltNode x (isort ltNode xs)) = sizeN x + sizeL xs
    rw [sizeL_insertLe, ih]

theorem sizeL_filter (p : FSNode → Bool) : ∀ l, sizeL (l.filter p) ≤ sizeL l := by
  intro l
  induction l with
  | nil => exact Nat.le_refl _
  | cons c cs ih =>
    rw [List.filter_cons]
    by_cases hc : p c = true
    · rw [if_pos hc]
      show sizeN c + sizeL (cs.filter p) ≤ sizeN c + sizeL cs
      omega
    · rw [if_neg hc]
      show sizeL (cs.filter p) ≤ sizeN c + sizeL cs
      have := sizeN_pos c
      omega

theorem runLF_fuel : ∀ (fuel k : Nat) (ns : List FSNode) (st : LState),
    sizeL ns ≤ fuel → runLF (fuel + k) ns st = runLF fuel ns st := by
  intro fuel
  induction fuel with
  | zero =>
    intro k ns st h
    have hns : ns = [] := by
      cases ns with
      | nil => rfl
      | cons n rest =>
        have h1 := sizeN_pos n
        have h2 : sizeL (n :: rest) = sizeN n + sizeL rest := rfl
        omega
    subst hns
    cases k with
    | zero => rfl
    | succ k => rfl
  | succ fuel ih =>
    intro k ns st h
    cases ns with
    | nil =>
      cases k with
      | zero => rfl
      | succ k => rfl
    | cons n rest =>
      rw [show fuel + 1 + k = (fuel + k) + 1 by omega]
      show runLF (fuel + k) _ (stepBlock n st) = runLF fuel _ (stepBlock n st)
      apply ih
      have h1 : sizeL (n :: rest) = sizeN n + sizeL rest := rfl
      have h2 : sizeN n = 1 + sizeL n.children := by
        cases n with
        | mk e cs => rfl
      have h3 := sizeL_filter (fun c => dirB c.e) (isort ltNode n.children)
      rw [sizeL_isort] at h3
      rw [sizeL_append]
      omega

/-! ## The two-way diff engine

`compare2` is declared in the header but its body is not part of the
sources here, so the merge algorithm is taken from the specification:
a sorted merge walk over the two sibling lists that emits one row per
differing path, recurses into directory pairs, and expands one-sided
subtrees. -/

/-- Modelled from the spec: record equality, which compares every
stored field except the hard-link count. -/
def beqElem (a b : FilesystemElement) : Bool :=
  (a.ty == b.ty) && (a.per == b.per) && (a.us == b.us) && (a.gs == b.gs) &&
  (a.mt == b.mt) && (a.sz == b.sz) && (a.fileHash == b.fileHash) &&
  (a.rp == b.rp) && (a.symlink == b.symlink)

/-- One row of a two-way diff: a slot per tree, absent or a record. -/
abbrev DiffRow : Type := Option FilesystemElement × Option FilesystemElement

mutual

/-- All records of a subtree in depth-first pre-order, the node's own
record first. -/
def elemsN : FSNode → List FilesystemElement
  | .mk e cs => e :: elemsF cs

/-- All records of a forest in depth-first pre-order. -/
def elemsF : List FSNode → List FilesystemElement
  | [] => []
  | n :: ns => elemsN n ++ elemsF ns

end

/-- Modelled from the spec: the sorted merge walk of the diff engine
over two sibling lists.  Fuel bounds the recursion depth; the combined
node count always suffices. -/
def cmp2 : Nat → List FSNode → List FSNode → List DiffRow
  | 0, _, _ => []
  | _ + 1, [], [] => []
  | fuel + 1, [], b :: bs =>
    (elemsN b).map (fun e => ((none, some e) : DiffRow)) ++ cmp2 fuel [] bs
  | fuel + 1, a :: as, [] =>
    (elemsN a).map (fun e => ((some e, none) : DiffRow)) ++ cmp2 fuel as []
  | fuel + 1, a :: as, b :: bs =>
    if a.e.rp == b.e.rp then
      (if beqElem a.e b.e then ([] : List DiffRow) else [(some a.e, some b.e)]) ++
      (if dirB a.e && dirB b.e then cmp2 fuel a.children b.children else []) ++
      cmp2 fuel as bs
    else if ltElem a.e b.e then
      (elemsN a).map (fun e => ((some e, none) : DiffRow)) ++ cmp2 fuel as (b :: bs)
    else
      (elemsN b).map (fun e => ((none, some e) : DiffRow)) ++ cmp2 fuel (a :: as) bs

/-- Modelled from the spec: `compare2`, the two-way diff of two trees
given by their top-level sibling lists. -/
def compare2 (a b : List FSNode) : List DiffRow :=
  cmp2 (sizeL a + sizeL b + 1) a b

theorem beqElem_refl (e : FilesystemElement) : beqElem e e = true := by
  simp [beqElem]

theorem cmp2_self : ∀ (fuel : Nat) (ts : List FSNode), cmp2 fuel ts ts = [] := by
  intro fuel
  induction fuel with
  | zero => intro ts; rfl
  | succ fuel ih =>
    intro ts
    cases ts with
    | nil => rfl
    | cons a as =>
      show (if a.e.rp == a.e.rp then
          (if beqElem a.e a.e then ([] : List DiffRow) else [(some a.e, some a.e)]) ++
          (if dirB a.e && dirB a.e then cmp2 fuel a.children a.children else []) ++
          cmp2 fuel as as
        else if ltElem a.e a.e then
          (elemsN a).map (fun e => ((some e, none) : DiffRow)) ++ cmp2 fuel as (a :: as)
        else
          (elemsN a).map (fun e => ((none, some e) : DiffRow)) ++ cmp2 fuel (a :: as) as) = []
      simp [beqElem_refl, ih]

/-! ## DirectoryTree serialize / deserialize

`DirectoryTree::writeTo` / `readFrom` are declared in the header but
their bodies are not in the sources here; they are modelled from the
specification (§4.5).  The writer performs the depth-first sorted
traversal emitting one block per directory, with the blank-separator
behaviour of the `printBreak` member the class shares with
`FileLister`; the reader consumes blank-line-delimited blocks and
reattaches each to the next pending directory of the same pre-order
walk. -/

/-- The free-text fields of a record contain no newline (always true of
real path names); needed for the line-oriented format to be invertible. -/
def noNL (e : FilesystemElement) : Bool :=
  decide ('\n' ∉ e.rp.data) && decide ('\n' ∉ e.symlink.data)

/-- Strictly increasing chain of sibling nodes in the stored order. -/
def chainSorted : List FSNode → Bool
  | [] => true
  | [_] => true
  | a :: b :: rest => ltNode a b && chainSorted (b :: rest)

mutual

/-- Well-formedness of a stored tree node: a well-formed, newline-free
record; children exactly when it is a directory, and at least one child
when it is; children sorted and themselves well-formed. -/
def wfNode : FSNode → Bool
  | .mk e cs =>
    wfElem e && noNL e && (if dirB e then !cs.isEmpty else cs.isEmpty) &&
    chainSorted cs && wfForest cs

def wfForest : List FSNode → Bool
  | [] => true
  | n :: ns => wfNode n && wfForest ns

end

mutual

/-- Reset the hard-link count of every record, as decoding does. -/
def resetN : FSNode → FSNode
  | .mk e cs => .mk { e with hardLinkCnt := 1 } (resetF cs)

def resetF : List FSNode → List FSNode
  | [] => []
  | n :: ns => resetN n :: resetF ns

end

mutual

/-- Modelled from the spec: the blocks a directory subtree contributes,
in depth-first pre-order — the directory's own children block first,
then the blocks of each child subtree in stored order. -/
def preBlocksN : FSNode → List (List FilesystemElement)
  | .mk _ cs => cs.map FSNode.e :: preBlocksF cs

/-- Modelled from the spec: the blocks contributed by a sibling list. -/
def preBlocksF : List FSNode → List (List FilesystemElement)
  | [] => []
  | n :: ns => (if dirB n.e then preBlocksN n else []) ++ preBlocksF ns

end

/-- Modelled from the spec: `DirectoryTree::writeTo` on a tree given by
its top-level sibling list — the pre-order blocks rendered with the
`printBreak` separator rule. -/
def serializeT (ts : List FSNode) : Chars :=
  renderBlocks (ts.map FSNode.e :: preBlocksF ts)

/-- Split text into newline-separated segments. -/
def splitNL : Chars → List Chars
  | [] => [[]]
  | c :: cs =>
    if c = '\n' then [] :: splitNL cs
    else
      match splitNL cs with
      | [] => [[c]]
      | seg :: rest => (c :: seg) :: rest

/-- Drop the final segment when it is empty: `getline` reads no line
after a terminating newline. -/
def dropLastEmpty : List Chars → List Chars
  | [] => []
  | [l] => if l = [] then [] else [l]
  | l :: r :: rest => l :: dropLastEmpty (r :: rest)

/-- The lines `getline` yields from the text. -/
def linesOf (text : Chars) : List Chars := dropLastEmpty (splitNL text)

/-- Modelled from the spec: group lines into blocks, blank lines
delimiting them. -/
def blocksSplit : List Chars → List (List Chars)
  | [] => [[]]
  | l :: ls =>
    if l = [] then [] :: blocksSplit ls
    else
      match blocksSplit ls with
      | [] => [[l]]
      | b :: bs => (l :: b) :: bs

/-- Parse every line of one block with the record codec. -/
def parseBlock : List Chars → Except String (List FilesystemElement)
  | [] => .ok []
  | l :: ls =>
    match readFrom ⟨l⟩ with
    | .error er => .error er
    | .ok r =>
      match parseBlock ls with
      | .error er => .error er
      | .ok rs => .ok (r :: rs)

def parseBlocks : List (List Chars) → Except String (List (List FilesystemElement))
  | [] => .ok []
  | b :: bs =>
    match parseBlock b with
    | .error er => .error er
    | .ok rb =>
      match parseBlocks bs with
      | .error er => .error er
      | .ok rbs => .ok (rb :: rbs)

/-- Modelled from the spec: rebuild sibling nodes from their records,
consuming one pending block per directory entry in the depth-first
pre-order the writer used.  Returns the built nodes and the blocks not
consumed.  Fuel bounds the recursion; the total record count always
suffices.  A directory whose block is missing gets no children. -/
def buildNodes : Nat → List FilesystemElement → List (List FilesystemElement) →
    (List FSNode × List (List FilesystemElement))
  | 0, _, blocks => ([], blocks)
  | _ + 1, [], blocks => ([], blocks)
  | fuel + 1, e :: es, blocks =>
    if dirB e = true then
      match blocks with
      | b :: bs =>
        match buildNodes fuel b bs with
        | (kids, bs') =>
          match buildNodes fuel es bs' with
          | (sibs, bs'') => (FSNode.mk e kids :: sibs, bs'')
      | [] =>
        match buildNodes fuel es [] with
        | (sibs, bs') => (FSNode.mk e [] :: sibs, bs')
    else
      match buildNodes fuel es blocks with
      | (sibs, bs') => (FSNode.mk e [] :: sibs, bs')

/-- Total record count of a block list. -/
def totLen : List (List FilesystemElement) → Nat
  | [] => 0
  | b :: bs => b.length + totLen bs

/-- Modelled from the spec: `DirectoryTree::readFrom` — split the text
into blank-line-delimited blocks of codec lines, parse every line, and
reattach the blocks along the pre-order walk. -/
def deserializeT (text : Chars) : Except String (List FSNode) :=
  match parseBlocks (blocksSplit (linesOf text)) with
  | .error er => .error er
  | .ok [] => .ok []
  | .ok (b0 :: bs) => .ok (buildNodes (totLen (b0 :: bs) + 1) b0 bs).1

/-! ### No newline inside a written line -/

theorem escChars_mem (s : Chars) (c : Char) (h : c ∈ escChars s) :
    c = '\\' ∨ c ∈ s := by
  induction s with
  | nil => exact absurd h (by simp [escChars])
  | cons x xs ih =>
    simp only [escChars] at h
    by_cases hx : x = '"' ∨ x = '\\'
    · rw [if_pos hx] at h
      rcases List.mem_cons.mp h with h1 | h2
      · exact Or.inl h1
      rcases List.mem_cons.mp h2 with h3 | h4
      · exact Or.inr (by simp [h3])
      · rcases ih h4 with h5 | h6
        · exact Or.inl h5
        · exact Or.inr (by simp [h6])
    · rw [if_neg hx] at h
      rcases List.mem_cons.mp h with h1 | h2
      · exact Or.inr (by simp [h1])
      · rcases ih h2 with h3 | h4
        · exact Or.inl h3
        · exact Or.inr (by simp [h4])

theorem quoteChars_no_nl (s : String) (hs : '\n' ∉ s.data) :
    '\n' ∉ quoteChars s := by
  intro h
  simp only [quoteChars] at h
  rcases List.mem_cons.mp h with h1 | h2
  · exact absurd h1.symm (by decide)
  rcases List.mem_append.mp h2 with h3 | h4
  · rcases escChars_mem _ _ h3 with h5 | h6
    · exact absurd h5 (by decide)
    · exact hs h6
  · simp at h4

theorem natDec_no_nl (n : Nat) : '\n' ∉ natDec n := by
  intro h
  have := natDec_digits n _ h
  simp [isDig] at this

theorem intDec_no_nl (z : Int) : '\n' ∉ intDec z := by
  intro h
  simp only [intDec] at h
  by_cases hz : z < 0
  · rw [if_pos hz] at h
    rcases List.mem_cons.mp h with h1 | h2
    · exact absurd h1.symm (by decide)
    · exact natDec_no_nl _ h2
  · rw [if_neg hz] at h
    exact natDec_no_nl _ h

theorem pad2_no_nl (n : Int) : '\n' ∉ pad2 n := by
  intro h
  have := pad2_digits n _ h
  simp [isDig] at this

theorem timeChars_no_nl (z : Int) : '\n' ∉ timeChars z := by
  intro h
  simp only [timeChars] at h
  rcases List.mem_append.mp h with h | h
  · rcases List.mem_append.mp h with h | h
    · rcases List.mem_append.mp h with h | h
      · rcases List.mem_append.mp h with h | h
        · rcases List.mem_append.mp h with h | h
          · exact intDec_no_nl _ h
          · rcases List.mem_cons.mp h with h | h
            · exact absurd h (by decide)
            · exact pad2_no_nl _ h
        · rcases List.mem_cons.mp h with h | h
          · exact absurd h (by decide)
          · exact pad2_no_nl _ h
      · rcases List.mem_cons.mp h with h | h
        · exact absurd h (by decide)
        · exact pad2_no_nl _ h
    · rcases List.mem_cons.mp h with h | h
      · exact absurd h (by decide)
      · exact pad2_no_nl _ h
  · rcases List.mem_cons.mp h with h | h
    · exact absurd h (by decide)
    · exact pad2_no_nl _ h

theorem tok_no_nl (s : String) (htok : isTokB s = true) : '\n' ∉ s.data := by
  intro h
  have := isTok_not_spc htok _ h
  simp [isSpc] at this

theorem writeLine_no_nl (e : FilesystemElement) (hwf : wfElem e = true)
    (hnl : noNL e = true) : '\n' ∉ writeLine e := by
  obtain ⟨hus, hgs, hmt0, hmt1, hper⟩ := wfElem_parts e hwf
  simp only [noNL, Bool.and_eq_true, decide_eq_true_eq] at hnl
  intro h
  simp only [writeLine, writeLineG] at h
  rcases List.mem_append.mp h with h | h
  · have := permChars_not_spc e _ h
    simp [isSpc] at this
  rcases List.mem_cons.mp h with h | h
  · exact absurd h (by decide)
  rcases List.mem_append.mp h with h | h
  · exact tok_no_nl _ hus h
  rcases List.mem_cons.mp h with h | h
  · exact absurd h (by decide)
  rcases List.mem_append.mp h with h | h
  · exact tok_no_nl _ hgs h
  rcases List.mem_cons.mp h with h | h
  · exact absurd h (by decide)
  rcases List.mem_append.mp h with h | h
  · exact timeChars_no_nl _ h
  rcases List.mem_append.mp h with h | h
  · revert h
    decide
  rcases List.mem_cons.mp h with h | h
  · exact absurd h (by decide)
  cases hty : e.ty with
  | regular =>
    rw [show typeFields e e.fileHash =
      intDec e.sz ++ ' ' :: (e.fileHash.data ++ ' ' :: quoteChars e.rp) from by
        simp only [typeFields, hty]] at h
    simp only [wfElem, hty, Bool.and_eq_true, decide_eq_true_eq] at hwf
    obtain ⟨⟨⟨_, _⟩, hht⟩, _⟩ := hwf.2
    rcases List.mem_append.mp h with h | h
    · exact intDec_no_nl _ h
    rcases List.mem_cons.mp h with h | h
    · exact absurd h (by decide)
    rcases List.mem_append.mp h with h | h
    · exact tok_no_nl _ hht h
    rcases List.mem_cons.mp h with h | h
    · exact absurd h (by decide)
    · exact quoteChars_no_nl _ hnl.1 h
  | directory =>
    rw [show typeFields e e.fileHash = quoteChars e.rp from by
      simp only [typeFields, hty]] at h
    exact quoteChars_no_nl _ hnl.1 h
  | symlink =>
    rw [show typeFields e e.fileHash =
      quoteChars e.symlink ++ ' ' :: quoteChars e.rp from by
        simp only [typeFields, hty]] at h
    rcases List.mem_append.mp h with h | h
    · exact quoteChars_no_nl _ hnl.2 h
    rcases List.mem_cons.mp h with h | h
    · exact absurd h (by decide)
    · exact quoteChars_no_nl _ hnl.1 h
  | unknown =>
    rw [show typeFields e e.fileHash = quoteChars e.rp from by
      simp only [typeFields, hty]] at h
    exact quoteChars_no_nl _ hnl.1 h

theorem writeLine_ne_nil (e : FilesystemElement) : writeLine e ≠ [] := by
  intro h
  have h2 := congrArg List.length h
  rw [show writeLine e = permChars e ++ ' ' :: (e.us.data ++ ' ' :: (e.gs.data ++
    ' ' :: (timeChars e.mt ++ (" +0000".data ++ ' ' :: typeFields e e.fileHash))))
    from rfl, List.length_append, List.length_cons] at h2
  simp only [List.length_nil] at h2
  omega

/-! ### Lines of the rendered text -/

theorem splitNL_ne_nil (t : Chars) : splitNL t ≠ [] := by
  cases t with
  | nil => simp [splitNL]
  | cons c cs =>
    simp only [splitNL]
    split_ifs
    · simp
    · cases splitNL cs <;> simp

theorem splitNL_line (l : Chars) (t : Chars) (h : '\n' ∉ l) :
    splitNL (l ++ '\n' :: t) = l :: splitNL t := by
  induction l with
  | nil =>
    show splitNL ('\n' :: t) = [] :: splitNL t
    simp [splitNL]
  | cons c cs ih =>
    have hc : c ≠ '\n' := fun he => h (by simp [he])
    have hcs : '\n' ∉ cs := fun he => h (by simp [he])
    show splitNL (c :: (cs ++ '\n' :: t)) = (c :: cs) :: splitNL t
    simp only [splitNL]
    rw [if_neg hc, ih hcs]

theorem blockLines_split (b : List FilesystemElement) (t : Chars)
    (hm : ∀ e ∈ b, '\n' ∉ writeLine e) :
    splitNL (blockLines b ++ t) = b.map writeLine ++ splitNL t := by
  induction b with
  | nil => simp [blockLines]
  | cons e es ih =>
    show splitNL ((writeLine e ++ ['\n']) ++ blockLines es ++ t) = _
    rw [List.append_assoc, List.append_assoc,
      show (['\n'] : Chars) ++ (blockLines es ++ t) =
        '\n' :: (blockLines es ++ t) from rfl,
      splitNL_line _ _ (hm e (by simp)), ih (fun x hx => hm x (by simp [hx]))]
    rfl

/-- The line sequence of blocks after the first: a blank line then the
block's lines, repeatedly. -/
def midLines : List (List FilesystemElement) → List Chars
  | [] => []
  | b :: bs => [] :: (b.map writeLine ++ midLines bs)

theorem renderGo_lines (bs : List (List FilesystemElement))
    (hne : ∀ b ∈ bs, b ≠ []) (hm : ∀ b ∈ bs, ∀ e ∈ b, '\n' ∉ writeLine e) :
    splitNL (renderGo bs true) = midLines bs ++ [[]] := by
  induction bs with
  | nil => rfl
  | cons b rest ih =>
    show splitNL (['\n'] ++ blockLines b ++ renderGo rest (!b.isEmpty)) = _
    have hbe : (!b.isEmpty) = true := by
      have := hne b (by simp)
      cases b
      · simp at this
      · simp
    rw [hbe]
    show splitNL ('\n' :: (blockLines b ++ renderGo rest true)) = _
    rw [show splitNL ('\n' :: (blockLines b ++ renderGo rest true)) =
      [] :: splitNL (blockLines b ++ renderGo rest true) from by simp [splitNL]]
    rw [blockLines_split b _ (hm b (by simp)),
      ih (fun x hx => hne x (by simp [hx])) (fun x hx => hm x (by simp [hx]))]
    simp [midLines]

theorem dropLastEmpty_append (xs : List Chars) :
    dropLastEmpty (xs ++ [[]]) = xs := by
  induction xs with
  | nil => rfl
  | cons x rest ih =>
    cases rest with
    | nil => rfl
    | cons y ys =>
      show x :: dropLastEmpty ((y :: ys) ++ [[]]) = x :: y :: ys
      rw [ih]

theorem blocksSplit_run (ws : List Chars) (rest : List Chars)
    (hne : ∀ w ∈ ws, w ≠ []) :
    blocksSplit (ws ++ [] :: rest) = ws :: blocksSplit rest := by
  induction ws with
  | nil =>
    show blocksSplit ([] :: rest) = [] :: blocksSplit rest
    simp [blocksSplit]
  | cons w ws ih =>
    show blocksSplit (w :: (ws ++ [] :: rest)) = (w :: ws) :: blocksSplit rest
    simp only [blocksSplit]
    rw [if_neg (hne w (by simp)), ih (fun x hx => hne x (by simp [hx]))]

theorem blocksSplit_last (ws : List Chars) (hw : ws ≠ [])
    (hne : ∀ w ∈ ws, w ≠ []) : blocksSplit ws = [ws] := by
  induction ws with
  | nil => exact absurd rfl hw
  | cons w ws ih =>
    simp only [blocksSplit]
    rw [if_neg (hne w (by simp))]
    cases hws : ws with
    | nil => rfl
    | cons y ys =>
      rw [← hws, ih (by simp [hws]) (fun x hx => hne x (by simp [hx]))]

theorem blocksSplit_mid (ws : List Chars) (bs : List (List FilesystemElement))
    (hw : ws ≠ []) (hne : ∀ w ∈ ws, w ≠ [])
    (hbne : ∀ b ∈ bs, b ≠ []) (hlne : ∀ e : FilesystemElement, writeLine e ≠ []) :
    blocksSplit (ws ++ midLines bs) = ws :: bs.map (fun b => b.map writeLine) := by
  induction bs generalizing ws with
  | nil =>
    show blocksSplit (ws ++ []) = [ws]
    rw [List.append_nil]
    exact blocksSplit_last ws hw hne
  | cons b rest ih =>
    show blocksSplit (ws ++ [] :: (b.map writeLine ++ midLines rest)) = _
    rw [blocksSplit_run ws _ hne,
      ih (b.map writeLine) (by
        have := hbne b (by simp)
        cases b
        · exact absurd rfl this
        · simp)
      (by
        intro w hw2
        obtain ⟨e, he, hwe⟩ := List.mem_map.mp hw2
        rw [← hwe]
        exact hlne e)
      (fun x hx => hbne x (by simp [hx]))]
    rfl

/-! ### Parsing back the written blocks -/

/-- What decoding does to a record: the hard-link count comes back 1. -/
def reset1 (e : FilesystemElement) : FilesystemElement := { e with hardLinkCnt := 1 }

theorem parseBlock_ok (b : List FilesystemElement)
    (h : ∀ e ∈ b, wfElem e = true) :
    parseBlock (b.map writeLine) = .ok (b.map reset1) := by
  induction b with
  | nil => rfl
  | cons e es ih =>
    have hr := writeLine_roundtrip e (h e (by simp))
    simp only [List.map_cons, parseBlock, hr,
      ih (fun x hx => h x (by simp [hx]))]
    rfl

theorem parseBlocks_ok (bs : List (List FilesystemElement))
    (h : ∀ b ∈ bs, ∀ e ∈ b, wfElem e = true) :
    parseBlocks (bs.map (fun b => b.map writeLine)) =
      .ok (bs.map (fun b => b.map reset1)) := by
  induction bs with
  | nil => rfl
  | cons b rest ih =>
    simp only [List.map_cons, parseBlocks, parseBlock_ok b (h b (by simp)),
      ih (fun x hx => h x (by simp [hx]))]

/-! ### Rebuilding the tree from its blocks -/

theorem dirB_reset1 (e : FilesystemElement) : dirB (reset1 e) = dirB e := rfl

theorem wfNode_parts (e : FilesystemElement) (cs : List FSNode)
    (h : wfNode (.mk e cs) = true) :
    wfElem e = true ∧ noNL e = true ∧
    (if dirB e = true then cs ≠ [] else cs = []) ∧
    chainSorted cs = true ∧ wfForest cs = true := by
  simp only [wfNode, Bool.and_eq_true] at h
  obtain ⟨⟨⟨⟨h1, h2⟩, h3⟩, h4⟩, h5⟩ := h
  refine ⟨h1, h2, ?_, h4, h5⟩
  by_cases hd : dirB e = true
  · rw [if_pos hd]
    rw [if_pos hd] at h3
    cases cs
    · simp at h3
    · simp
  · rw [if_neg hd]
    rw [if_neg hd] at h3
    cases cs
    · rfl
    · simp at h3

theorem wfForest_mem (ts : List FSNode) (h : wfForest ts = true) :
    ∀ n ∈ ts, wfNode n = true := by
  induction ts with
  | nil => simp
  | cons n ns ih =>
    simp only [wfForest, Bool.and_eq_true] at h
    intro x hx
    rcases List.mem_cons.mp hx with h1 | h2
    · rw [h1]
      exact h.1
    · exact ih h.2 x h2

theorem buildNodes_inv : ∀ (fuel : Nat) (ts : List FSNode)
    (extra : List (List FilesystemElement)), sizeL ts < fuel →
    wfForest ts = true →
    buildNodes fuel ((ts.map FSNode.e).map reset1)
      ((preBlocksF ts).map (List.map reset1) ++ extra) = (resetF ts, extra) := by
  intro fuel
  induction fuel with
  | zero =>
    intro ts extra h _
    omega
  | succ fuel ih =>
    intro ts extra hsz hwf
    cases ts with
    | nil => rfl
    | cons n ns =>
      cases n with
      | mk e cs =>
        simp only [wfForest, Bool.and_eq_true] at hwf
        obtain ⟨hwfe, hnle, hdir, hch, hcs⟩ := wfNode_parts e cs hwf.1
        have hwfns := hwf.2
        have hs1 : sizeL (FSNode.mk e cs :: ns) = (1 + sizeL cs) + sizeL ns := rfl
        have hpb : preBlocksF (FSNode.mk e cs :: ns) =
            (if dirB e = true then cs.map FSNode.e :: preBlocksF cs else []) ++
            preBlocksF ns := by
          show (if dirB e then preBlocksN (FSNode.mk e cs) else []) ++
            preBlocksF ns = _
          by_cases hd : dirB e = true
          · rw [if_pos hd, if_pos hd]
            rfl
          · rw [if_neg hd, if_neg hd]
        by_cases hd : dirB e = true
        · rw [hpb, if_pos hd]
          show buildNodes (fuel + 1) (reset1 e :: (ns.map FSNode.e).map reset1)
            (((cs.map FSNode.e :: preBlocksF cs) ++ preBlocksF ns).map
              (List.map reset1) ++ extra) = _
          rw [List.cons_append, List.map_cons, List.map_append]
          show (if dirB (reset1 e) = true then _ else _) = _
          rw [show dirB (reset1 e) = dirB e from rfl, if_pos hd]
          rw [List.cons_append, List.append_assoc]
          show (match buildNodes fuel ((cs.map FSNode.e).map reset1)
              ((preBlocksF cs).map (List.map reset1) ++
                ((preBlocksF ns).map (List.map reset1) ++ extra)) with
            | (kids, bs') =>
              match buildNodes fuel ((ns.map FSNode.e).map reset1) bs' with
              | (sibs, bs'') => (FSNode.mk (reset1 e) kids :: sibs, bs'')) = _
          rw [ih cs _ (by omega) hcs]
          show (match buildNodes fuel ((ns.map FSNode.e).map reset1)
              ((preBlocksF ns).map (List.map reset1) ++ extra) with
            | (sibs, bs'') => (FSNode.mk (reset1 e) (resetF cs) :: sibs, bs'')) = _
          rw [ih ns _ (by omega) hwfns]
          rfl
        · rw [if_neg hd] at hdir
          subst hdir
          rw [hpb, if_neg hd, List.nil_append]
          show buildNodes (fuel + 1) (reset1 e :: (ns.map FSNode.e).map reset1)
            ((preBlocksF ns).map (List.map reset1) ++ extra) =
            (resetF (FSNode.mk e [] :: ns), extra)
          show (if dirB (reset1 e) = true then _ else _) =
            (resetF (FSNode.mk e [] :: ns), extra)
          rw [show dirB (reset1 e) = dirB e from rfl, if_neg hd]
          show (match buildNodes fuel ((ns.map FSNode.e).map reset1)
              ((preBlocksF ns).map (List.map reset1) ++ extra) with
            | (sibs, bs') => (FSNode.mk (reset1 e) [] :: sibs, bs')) =
            (resetF (FSNode.mk e [] :: ns), extra)
          rw [ih ns _ (by omega) hwfns]
          rfl

/-! ### Block element facts and record counts -/

theorem preBlocksF_good : ∀ (k : Nat) (ts : List FSNode), sizeL ts ≤ k →
    wfForest ts = true → ∀ b ∈ preBlocksF ts,
    b ≠ [] ∧ ∀ el ∈ b, wfElem el = true ∧ noNL el = true := by
  intro k
  induction k with
  | zero =>
    intro ts hsz _ b hb
    cases ts with
    | nil => simp [preBlocksF] at hb
    | cons n ns =>
      have h1 := sizeN_pos n
      have h2 : sizeL (n :: ns) = sizeN n + sizeL ns := rfl
      omega
  | succ k ih =>
    intro ts hsz hwf b hb
    cases ts with
    | nil => simp [preBlocksF] at hb
    | cons n ns =>
      cases n with
      | mk e cs =>
        simp only [wfForest, Bool.and_eq_true] at hwf
        obtain ⟨hwfe, hnle, hdir, hch, hcs⟩ := wfNode_parts e cs hwf.1
        have hs1 : sizeL (FSNode.mk e cs :: ns) = (1 + sizeL cs) + sizeL ns := rfl
        rcases List.mem_append.mp hb with hb | hb
        · by_cases hd : dirB e = true
          · rw [show (if dirB (FSNode.mk e cs).e then preBlocksN (FSNode.mk e cs)
              else []) = cs.map FSNode.e :: preBlocksF cs from by
                rw [show (FSNode.mk e cs).e = e from rfl, if_pos hd]; rfl] at hb
            rcases List.mem_cons.mp hb with hb | hb
            · subst hb
              refine ⟨?_, ?_⟩
              · rw [if_pos hd] at hdir
                cases cs
                · exact absurd rfl hdir
                · simp
              · intro el hel
                obtain ⟨c, hc, hce⟩ := List.mem_map.mp hel
                cases c with
                | mk ce ccs =>
                  obtain ⟨he1, he2, _, _, _⟩ :=
                    wfNode_parts ce ccs (wfForest_mem cs hcs _ hc)
                  rw [← hce]
                  exact ⟨he1, he2⟩
            · exact ih cs (by omega) hcs b hb
          · rw [show (if dirB (FSNode.mk e cs).e then preBlocksN (FSNode.mk e cs)
              else []) = [] from by
                rw [show (FSNode.mk e cs).e = e from rfl, if_neg hd]] at hb
            simp at hb
        · exact ih ns (by omega) hwf.2 b hb

theorem totLen_append (a b : List (List FilesystemElement)) :
    totLen (a ++ b) = totLen a + totLen b := by
  induction a with
  | nil => simp [totLen]
  | cons x xs ih =>
    show x.length + totLen (xs ++ b) = x.length + totLen xs + totLen b
    rw [ih]
    omega

theorem totLen_map_reset (bs : List (List FilesystemElement)) :
    totLen (bs.map (List.map reset1)) = totLen bs := by
  induction bs with
  | nil => rfl
  | cons b rest ih =>
    show (b.map reset1).length + totLen (rest.map (List.map reset1)) = _
    rw [List.length_map, ih]
    rfl

theorem totLen_pre : ∀ (k : Nat) (ts : List FSNode), sizeL ts ≤ k →
    wfForest ts = true → ts.length + totLen (preBlocksF ts) = sizeL ts := by
  intro k
  induction k with
  | zero =>
    intro ts hsz _
    cases ts with
    | nil => rfl
    | cons n ns =>
      have h1 := sizeN_pos n
      have h2 : sizeL (n :: ns) = sizeN n + sizeL ns := rfl
      omega
  | succ k ih =>
    intro ts hsz hwf
    cases ts with
    | nil => rfl
    | cons n ns =>
      cases n with
      | mk e cs =>
        simp only [wfForest, Bool.and_eq_true] at hwf
        obtain ⟨hwfe, hnle, hdir, hch, hcs⟩ := wfNode_parts e cs hwf.1
        have hs1 : sizeL (FSNode.mk e cs :: ns) = (1 + sizeL cs) + sizeL ns := rfl
        have hlen : (FSNode.mk e cs :: ns).length = 1 + ns.length := by
          simp [Nat.add_comm]
        have hcsk := ih cs (by omega) hcs
        have hnsk := ih ns (by omega) hwf.2
        by_cases hd : dirB e = true
        · have hpb : preBlocksF (FSNode.mk e cs :: ns) =
              (cs.map FSNode.e :: preBlocksF cs) ++ preBlocksF ns := by
            show (if dirB e then preBlocksN (FSNode.mk e cs) else []) ++
              preBlocksF ns = _
            rw [if_pos hd]
            rfl
          rw [hpb, totLen_append, hlen]
          show 1 + ns.length + ((cs.map FSNode.e).length + totLen (preBlocksF cs)
            + totLen (preBlocksF ns)) = _
          rw [List.length_map]
          omega
        · rw [if_neg hd] at hdir
          subst hdir
          have hpb : preBlocksF (FSNode.mk e [] :: ns) = preBlocksF ns := by
            show (if dirB e then preBlocksN (FSNode.mk e []) else []) ++
              preBlocksF ns = _
            rw [if_neg hd]
            rfl
          rw [hpb, hlen]
          show 1 + ns.length + totLen (preBlocksF ns) = (1 + sizeL ([] : List FSNode)) + sizeL ns
          show 1 + ns.length + totLen (preBlocksF ns) = (1 + 0) + sizeL ns
          omega

/-! ### The round trip of the tree codec -/

theorem serializeT_inv (ts : List FSNode) (hwf : wfForest ts = true) :
    deserializeT (serializeT ts) = .ok (resetF ts) := by
  cases ts with
  | nil => rfl
  | cons t ts' =>
    have hwfm := wfForest_mem _ hwf
    have hgood := preBlocksF_good (sizeL (t :: ts')) (t :: ts') (Nat.le_refl _) hwf
    have hB0e : ∀ el ∈ (t :: ts').map FSNode.e, wfElem el = true ∧ noNL el = true := by
      intro el hel
      obtain ⟨c, hc, hce⟩ := List.mem_map.mp hel
      cases c with
      | mk ce ccs =>
        obtain ⟨h1, h2, _, _, _⟩ := wfNode_parts ce ccs (hwfm _ hc)
        rw [← hce]
        exact ⟨h1, h2⟩
    have hser : serializeT (t :: ts') =
        blockLines ((t :: ts').map FSNode.e) ++
        renderGo (preBlocksF (t :: ts')) true := by
      show renderGo ((t :: ts').map FSNode.e :: preBlocksF (t :: ts')) false = _
      show (if false then ['\n'] else []) ++ blockLines ((t :: ts').map FSNode.e) ++
        renderGo (preBlocksF (t :: ts')) (!((t :: ts').map FSNode.e).isEmpty) = _
      rfl
    have hlines : splitNL (serializeT (t :: ts')) =
        ((t :: ts').map FSNode.e).map writeLine ++
        (midLines (preBlocksF (t :: ts')) ++ [[]]) := by
      rw [hser, blockLines_split _ _ (fun e he => writeLine_no_nl e (hB0e e he).1
        (hB0e e he).2),
        renderGo_lines _ (fun b hb => (hgood b hb).1)
          (fun b hb el hel => writeLine_no_nl el ((hgood b hb).2 el hel).1
            ((hgood b hb).2 el hel).2)]
    have hlo : linesOf (serializeT (t :: ts')) =
        ((t :: ts').map FSNode.e).map writeLine ++ midLines (preBlocksF (t :: ts')) := by
      rw [linesOf, hlines, ← List.append_assoc, dropLastEmpty_append]
    have hbs : blocksSplit (linesOf (serializeT (t :: ts'))) =
        ((t :: ts').map FSNode.e).map writeLine ::
        (preBlocksF (t :: ts')).map (fun b => b.map writeLine) := by
      rw [hlo]
      exact blocksSplit_mid _ _ (by simp)
        (by
          intro w hw
          obtain ⟨el, hel, hwe⟩ := List.mem_map.mp hw
          rw [← hwe]
          exact writeLine_ne_nil el)
        (fun b hb => (hgood b hb).1)
        writeLine_ne_nil
    have hpar : parseBlocks (blocksSplit (linesOf (serializeT (t :: ts')))) =
        .ok ((((t :: ts').map FSNode.e) :: preBlocksF (t :: ts')).map
          (fun b => b.map reset1)) := by
      rw [hbs,
        show ((t :: ts').map FSNode.e).map writeLine ::
          (preBlocksF (t :: ts')).map (fun b => b.map writeLine) =
          (((t :: ts').map FSNode.e) :: preBlocksF (t :: ts')).map
            (fun b => b.map writeLine) from rfl]
      exact parseBlocks_ok _ (by
        intro b hb el hel
        rcases List.mem_cons.mp hb with hb1 | hb2
        · subst hb1
          exact (hB0e el hel).1
        · exact ((hgood b hb2).2 el hel).1)
    show (match parseBlocks (blocksSplit (linesOf (serializeT (t :: ts')))) with
      | Except.error er => Except.error er
      | Except.ok [] => Except.ok []
      | Except.ok (b0 :: bs) =>
        Except.ok (buildNodes (totLen (b0 :: bs) + 1) b0 bs).1) =
      Except.ok (resetF (t :: ts'))
    rw [hpar]
    show Except.ok (buildNodes
      (totLen ((((t :: ts').map FSNode.e).map reset1) ::
        (preBlocksF (t :: ts')).map (List.map reset1)) + 1)
      (((t :: ts').map FSNode.e).map reset1)
      ((preBlocksF (t :: ts')).map (List.map reset1))).1 =
      Except.ok (resetF (t :: ts'))
    have htot : totLen ((((t :: ts').map FSNode.e).map reset1) ::
        (preBlocksF (t :: ts')).map (List.map reset1)) = sizeL (t :: ts') := by
      show (((t :: ts').map FSNode.e).map reset1).length +
        totLen ((preBlocksF (t :: ts')).map (List.map reset1)) = _
      rw [List.length_map, List.length_map, totLen_map_reset]
      exact totLen_pre (sizeL (t :: ts')) _ (Nat.le_refl _) hwf
    rw [htot]
    have hbn := buildNodes_inv (sizeL (t :: ts') + 1) (t :: ts') []
      (by omega) hwf
    rw [List.append_nil] at hbn
    rw [hbn]

/-! ## Shared facts for the claim theorems -/

theorem listFiles_ok (st : LState) (topPath : String) (n : FSNode)
    (hd : dirB n.e = true) :
    listFiles st topPath n = .ok ⟨st.out ++ renderBlocks (blocksOf n),
      endBrk (blocksOf n) false, anyBad (blocksOf n)⟩ := by
  show (if dirB n.e = false then Except.error (topPath ++ " is not a directory")
    else Except.ok (runLF (sizeN n) [n] ⟨st.out, false, false⟩)) = _
  rw [if_neg (by rw [hd]; simp)]
  rw [runLF_spec]
  show Except.ok (⟨st.out ++ renderGo (blocksWL (sizeN n) [n]) false,
    endBrk (blocksWL (sizeN n) [n]) false,
    false || anyBad (blocksWL (sizeN n) [n])⟩ : LState) = _
  rw [Bool.false_or]
  rfl

theorem anyBad_iff (bs : List (List FilesystemElement)) :
    anyBad bs = true ↔ ∃ b ∈ bs, ∃ e ∈ b, badE e = true := by
  induction bs with
  | nil => simp [anyBad]
  | cons b rest ih => simp [anyBad, List.any_eq_true, ih]

theorem elemsF_resetF : ∀ (k : Nat) (ts : List FSNode), sizeL ts ≤ k →
    elemsF (resetF ts) = (elemsF ts).map reset1 := by
  intro k
  induction k with
  | zero =>
    intro ts hsz
    cases ts with
    | nil => rfl
    | cons n ns =>
      have h1 := sizeN_pos n
      have h2 : sizeL (n :: ns) = sizeN n + sizeL ns := rfl
      omega
  | succ k ih =>
    intro ts hsz
    cases ts with
    | nil => rfl
    | cons n ns =>
      cases n with
      | mk e cs =>
        have hs1 : sizeL (FSNode.mk e cs :: ns) = (1 + sizeL cs) + sizeL ns := rfl
        show elemsN (resetN (FSNode.mk e cs)) ++ elemsF (resetF ns) = _
        show (reset1 e :: elemsF (resetF cs)) ++ elemsF (resetF ns) = _
        rw [ih cs (by omega), ih ns (by omega)]
        show reset1 e :: ((elemsF cs).map reset1 ++ (elemsF ns).map reset1) = _
        rw [show elemsF (FSNode.mk e cs :: ns) =
          (e :: elemsF cs) ++ elemsF ns from rfl]
        simp

/-! ## Concrete records and trees for the claims -/

def cexElemC1 : FilesystemElement :=
  { ty := .directory, per := 493, us := "root", gs := "root", mt := -1, sz := 0,
    fileHash := "", rp := "x", symlink := "", hardLinkCnt := 1 }

def wElemC1 : FilesystemElement :=
  { ty := .regular, per := 420, us := "root", gs := "wheel", mt := 1577934245,
    sz := 1234, fileHash := "0123456789012345678901234567890123456789",
    rp := "a dir/some file.txt", symlink := "", hardLinkCnt := 3 }

def wElemC3 : FilesystemElement :=
  { ty := .unknown, per := 0, us := "u", gs := "g", mt := 0, sz := 0,
    fileHash := "", rp := "a b", symlink := "", hardLinkCnt := 2 }

def cexC4a : FilesystemElement :=
  { ty := .regular, per := 0, us := "u", gs := "g", mt := 0, sz := 0,
    fileHash := "", rp := "a/b", symlink := "", hardLinkCnt := 1 }

def cexC4b : FilesystemElement :=
  { ty := .regular, per := 0, us := "u", gs := "g", mt := 0, sz := 0,
    fileHash := "", rp := "a.c", symlink := "", hardLinkCnt := 1 }

def wC4a : FilesystemElement := { cexC4a with rp := "a" }

def wC4b : FilesystemElement := { cexC4a with rp := "b" }

def wC4c : FilesystemElement := { cexC4a with rp := "c" }

def eTop6 : FilesystemElement :=
  { ty := .directory, per := 448, us := "u", gs := "g", mt := 0, sz := 0,
    fileHash := "", rp := "", symlink := "", hardLinkCnt := 1 }

def eA6 : FilesystemElement := { eTop6 with rp := "a" }

def eB6 : FilesystemElement := { eTop6 with rp := "b" }

def eF6 : FilesystemElement :=
  { ty := .unknown, per := 0, us := "u", gs := "g", mt := 0, sz := 0,
    fileHash := "", rp := "b/f", symlink := "", hardLinkCnt := 1 }

/-- A directory with an empty subdirectory `a` followed by a non-empty
subdirectory `b`. -/
def cexTreeC6 : FSNode :=
  .mk eTop6 [.mk eA6 [], .mk eB6 [.mk eF6 []]]

/-- A directory holding one unsupported entry. -/
def wTreeC6 : FSNode := .mk eTop6 [.mk eF6 []]

def eL7 : FilesystemElement :=
  { ty := .unknown, per := 0, us := "u", gs := "g", mt := 0, sz := 0,
    fileHash := "", rp := "dev0", symlink := "", hardLinkCnt := 1 }

def wTreeC7 : FSNode := .mk eTop6 [.mk eL7 []]

def eC9 : FilesystemElement :=
  { ty := .regular, per := 420, us := "u", gs := "g", mt := 0, sz := 0,
    fileHash := "0123456789012345678901234567890123456789", rp := "f",
    symlink := "", hardLinkCnt := 1 }

def wNodeC9 : FSNode := .mk eC9 []

def eA2 : FilesystemElement :=
  { ty := .directory, per := 448, us := "u", gs := "g", mt := 0, sz := 0,
    fileHash := "", rp := "a", symlink := "", hardLinkCnt := 1 }

def eB2 : FilesystemElement := { eA2 with rp := "b" }

def eX2 : FilesystemElement :=
  { ty := .unknown, per := 0, us := "u", gs := "g", mt := 0, sz := 0,
    fileHash := "", rp := "b/x", symlink := "", hardLinkCnt := 1 }

/-- An empty directory `a` followed by a directory `b` with one entry. -/
def cexForestC2 : List FSNode := [.mk eA2 [], .mk eB2 [.mk eX2 []]]

def wForestC2 : List FSNode := [.mk eB2 [.mk eX2 []]]

/-! ## The claims -/

/-- Claim C1 (corrected: the decoder rejects the encoding of any record
whose timestamp is exactly -1, so the hypothesis that the timestamp is a
representable, non-negative instant — part of `wfElem` — is needed):
decoding the line `writeTo` produces for a well-formed record succeeds
and returns the record with every field preserved except
`hardLinkCount`, which is reset to 1. -/
theorem C1_line_roundtrip (e : FilesystemElement) (h : wfElem e = true) :
    readFrom ⟨writeLine e⟩ = .ok { e with hardLinkCnt := 1 } :=
  writeLine_roundtrip e h

/-- Claim C1, the counterexample to the unrestricted statement: a
directory record with `mtime = -1` encodes to a line the decoder
rejects, because `readFrom` treats the -1 conversion result as
failure. -/
theorem C1_mtime_cex :
    readFrom ⟨writeLine cexElemC1⟩ = .error "Error reading mtime" := rfl

theorem C1_line_roundtrip_witness :
    wfElem wElemC1 = true ∧
    readFrom ⟨writeLine wElemC1⟩ = .ok { wElemC1 with hardLinkCnt := 1 } :=
  ⟨by decide, C1_line_roundtrip wElemC1 (by decide)⟩

/-- Claim C2 (corrected, spec-modelled: the writer emits nothing for an
empty directory's block while the reader assigns blocks to pending
directories positionally, so an empty directory followed by another
directory makes the round trip reattach blocks to the wrong parents;
hypothesis `wfForest` additionally requires well-formed, newline-free
records, children exactly on directories and at least one child per
directory, and sorted siblings): serializing a tree and deserializing
the text reproduces the tree, every record equal up to the hard-link
count, in the same pre-order sequence. -/
theorem C2_tree_roundtrip (ts : List FSNode) (hwf : wfForest ts = true) :
    deserializeT (serializeT ts) = .ok (resetF ts) ∧
    elemsF (resetF ts) = (elemsF ts).map reset1 :=
  ⟨serializeT_inv ts hwf, elemsF_resetF (sizeL ts) ts (Nat.le_refl _)⟩

/-- Claim C2, the counterexample to the unrestricted statement: for the
forest with an empty directory `a` then a directory `b` containing one
entry, the round trip hangs `b`'s entry under `a` instead, so the
pre-order record sequence differs from the original. -/
theorem C2_empty_dir_cex :
    deserializeT (serializeT cexForestC2) =
      .ok [.mk (reset1 eA2) [.mk (reset1 eX2) []], .mk (reset1 eB2) []] ∧
    elemsF [FSNode.mk (reset1 eA2) [.mk (reset1 eX2) []], .mk (reset1 eB2) []] ≠
      (elemsF cexForestC2).map reset1 := by
  exact ⟨rfl, by decide⟩

theorem C2_tree_roundtrip_witness :
    wfForest wForestC2 = true ∧
    (deserializeT (serializeT wForestC2) = .ok (resetF wForestC2) ∧
      elemsF (resetF wForestC2) = (elemsF wForestC2).map reset1) :=
  ⟨by decide, C2_tree_roundtrip wForestC2 (by decide)⟩

/-- Claim C3 (corrected: the path field is not read to end-of-line; it
is written with `std::quoted` and read back as a quoted field, which is
how embedded spaces survive — an unquoted spaced path is rejected):
decoding the line written for a well-formed record whose relative path
contains embedded spaces succeeds and returns the full path. -/
theorem C3_spaced_path_roundtrip (e : FilesystemElement)
    (h : wfElem e = true) (hsp : ' ' ∈ e.rp.data) :
    readFrom ⟨writeLine e⟩ = .ok { e with hardLinkCnt := 1 } :=
  writeLine_roundtrip e h

/-- Claim C3, the counterexample to the claim as stated: a line whose
final field is the unquoted spaced path `a b` is not decoded with
relativePath `a b` — the decoder reads only the token `a` and then
fails on the trailing ` b`. -/
theorem C3_eol_cex :
    readFrom "?rwxr-xr-x root root 2020-01-02 03:04:05 +0000 a b" =
      .error "Extra characters at end of line" := rfl

theorem C3_spaced_path_witness :
    wfElem wElemC3 = true ∧ ' ' ∈ wElemC3.rp.data ∧
    readFrom ⟨writeLine wElemC3⟩ = .ok { wElemC3 with hardLinkCnt := 1 } :=
  ⟨by decide, by decide, C3_spaced_path_roundtrip wElemC3 (by decide) (by decide)⟩

/-- Claim C4 (corrected: within one category the order on
`relativePath` is `std::filesystem::path` comparison — lexicographic
over slash-separated components — not byte-wise lexicographic
comparison of the whole string): `operator<` is irreflexive and
transitive, incomparability means equal directory-status and equal
path, directories sort strictly before non-directories, within one
category the order is the path order, and sorting any sibling list
yields a permutation with every directory before every
non-directory. -/
theorem C4_order :
    (∀ a : FilesystemElement, ltElem a a = false) ∧
    (∀ a b c : FilesystemElement, ltElem a b = true → ltElem b c = true →
      ltElem a c = true) ∧
    (∀ a b : FilesystemElement, ltElem a b = false → ltElem b a = false →
      dirB a = dirB b ∧ a.rp = b.rp) ∧
    (∀ a b : FilesystemElement, dirB a = true → dirB b = false →
      ltElem a b = true) ∧
    (∀ a b : FilesystemElement, dirB a = dirB b →
      ltElem a b = pathLt a.rp b.rp) ∧
    (∀ l : List FilesystemElement, (isort ltElem l).Perm l ∧
      (isort ltElem l).Pairwise fun x y => ¬(dirB x = false ∧ dirB y = true)) := by
  refine ⟨ltElem_irrefl, ltElem_trans, ltElem_conn, ltElem_dirFirst, ?_, ?_⟩
  · intro a b h
    show (if dirB a = dirB b then pathLt a.rp b.rp else dirB a && !dirB b) = _
    rw [if_pos h]
  · intro l
    refine ⟨isort_perm ltElem l, ?_⟩
    have hs := isort_pairwise ltElem ltElem_asymm ltElem_negtrans l
    refine hs.imp ?_
    intro a b hab hc
    have hlt := ltElem_dirFirst b a hc.2 hc.1
    rw [hab] at hlt
    exact absurd hlt (by simp)

/-- Claim C4, the counterexample to byte-wise lexicographic path
comparison: the non-directory records with paths `a/b` and `a.c` sort
as `a/b < a.c` under `operator<` (component `a` before component
`a.c`), while byte-wise string comparison orders `a.c` first (`.` is
below `/`). -/
theorem C4_bytewise_cex :
    ltElem cexC4a cexC4b = true ∧ strLexLt cexC4a.rp cexC4b.rp = false ∧
    strLexLt cexC4b.rp cexC4a.rp = true := by decide

theorem C4_order_witness :
    ltElem wC4a wC4b = true ∧ ltElem wC4b wC4c = true ∧
    ltElem wC4a wC4c = true := by
  refine ⟨by decide, by decide, ?_⟩
  exact C4_order.2.1 wC4a wC4b wC4c (by decide) (by decide)

/-- Claim C5 (confirmed): decoding is strict — a first token of the
wrong length is rejected; any accepted line's permission token is 10
characters from the allowed alphabet; text the timestamp parser rejects
is a fatal error; a six-character UTC-offset field other than the
literal `" +0000"` is rejected; a regular-file hash field whose length
is not 40 is rejected; and any characters after the path field are
rejected. -/
theorem C5_strict :
    (∀ (p : String) (rest : Chars), isTokB p = true → p.length ≠ 10 →
      readFrom ⟨p.data ++ ' ' :: rest⟩ =
        .error "Error reading permission string") ∧
    (∀ (line : String) (e : FilesystemElement), readFrom line = .ok e →
      ∃ p rest, readToken line.data = some (p, rest) ∧ p.length = 10 ∧
        permOkB p = true) ∧
    (∀ (e : FilesystemElement) (tail : Chars), isTokB e.us = true →
      isTokB e.gs = true → e.per < 512 → parseTimeFields tail = none →
      readFrom ⟨permChars e ++ ' ' :: (e.us.data ++ ' ' :: (e.gs.data ++
        ' ' :: tail))⟩ = .error "Error reading mtime") ∧
    (∀ (ty : FileTy) (pe : Nat) (us gs : String) (mt : Int) (off : String)
      (tf : Chars), mt ≠ -1 → off.data.length = 6 → off ≠ " +0000" →
      readFromTail ty pe us gs mt (off.data ++ ' ' :: tf) =
        .error "Error reading mtime") ∧
    (∀ (e : FilesystemElement) (hash : String), wfElem e = true →
      e.ty = .regular → isTokB hash = true → hash.length ≠ 40 →
      readFromTail e.ty e.per e.us e.gs e.mt
        (" +0000".data ++ ' ' :: typeFields e hash) =
        .error "Error reading hash") ∧
    (∀ (e : FilesystemElement) (extra : Chars), wfElem e = true →
      readFromTail e.ty e.per e.us e.gs e.mt
        (" +0000".data ++ ' ' :: (typeFields e e.fileHash ++ ' ' :: extra)) =
        .error "Extra characters at end of line") :=
  ⟨readFrom_permLen, readFrom_permSound, readFrom_badTime, readFromTail_badOff,
    readFromTail_badHash, readFromTail_extra⟩

theorem C5_strict_witness :
    readFrom ⟨"-rwx".data ++ ' ' :: "x".data⟩ =
      .error "Error reading permission string" ∧
    readFromTail .unknown 0 "u" "g" 5 (" +0100".data ++ ' ' :: []) =
      .error "Error reading mtime" := by
  refine ⟨?_, ?_⟩
  · exact C5_strict.1 "-rwx" "x".data (by decide) (by decide)
  · exact C5_strict.2.2.2.1 .unknown 0 "u" "g" 5 " +0100" [] (by decide)
      (by decide) (by decide)

/-- Claim C6 (corrected: the blank separator is governed by the
`printBreak` state — a blank line is written before a directory's block
exactly when the previously visited directory's block was non-empty —
which is not the spec's rule that every block after the first non-empty
one has a leading blank line; the two disagree as soon as an empty
directory is followed by another directory): the lister emits, in
depth-first pre-order over directories with children sorted by the
total order, one codec line per immediate child, blocks separated under
the `printBreak` rule. -/
theorem C6_lister_blocks (st : LState) (topPath : String) (n : FSNode)
    (hd : dirB n.e = true) :
    listFiles st topPath n = .ok ⟨st.out ++ renderBlocks (blocksOf n),
      endBrk (blocksOf n) false, anyBad (blocksOf n)⟩ :=
  listFiles_ok st topPath n hd

/-- Claim C6, the counterexample to the spec's separator rule: on the
tree with empty subdirectory `a` before non-empty subdirectory `b`, the
lister's output is not the spec-rule rendering (the spec rule yields
two blank lines between the first and last block, the code one). -/
theorem C6_separator_cex :
    (listFiles ⟨[], false, false⟩ "t" cexTreeC6).map LState.out =
      .ok (renderBlocks (blocksOf cexTreeC6)) ∧
    renderBlocks (blocksOf cexTreeC6) ≠ renderSpec (blocksOf cexTreeC6) := by
  exact ⟨rfl, by decide⟩

theorem C6_lister_blocks_witness :
    dirB wTreeC6.e = true ∧
    listFiles ⟨[], false, false⟩ "t" wTreeC6 =
      .ok ⟨[] ++ renderBlocks (blocksOf wTreeC6), endBrk (blocksOf wTreeC6) false,
        anyBad (blocksOf wTreeC6)⟩ :=
  ⟨by decide, C6_lister_blocks ⟨[], false, false⟩ "t" wTreeC6 (by decide)⟩

/-- Claim C7 (confirmed): after `listFiles` on a directory the
`unsupported` flag is true exactly when some listed entry has unknown
type or is a non-directory with hard-link count other than 1; the flag
is reset at the start of each run (the result does not depend on the
previous state), and such entries never abort the walk. -/
theorem C7_unsupported_flag (st : LState) (topPath : String) (n : FSNode)
    (hd : dirB n.e = true) :
    ∃ st', listFiles st topPath n = .ok st' ∧
      st'.unsupported = anyBad (blocksOf n) ∧
      (st'.unsupported = true ↔ ∃ b ∈ blocksOf n, ∃ e ∈ b, badE e = true) :=
  ⟨_, listFiles_ok st topPath n hd, rfl, anyBad_iff (blocksOf n)⟩

theorem C7_unsupported_witness :
    dirB wTreeC7.e = true ∧
    ∃ st', listFiles ⟨[], false, true⟩ "t" wTreeC7 = .ok st' ∧
      st'.unsupported = anyBad (blocksOf wTreeC7) ∧
      (st'.unsupported = true ↔ ∃ b ∈ blocksOf wTreeC7, ∃ e ∈ b, badE e = true) :=
  ⟨by decide, C7_unsupported_flag ⟨[], false, true⟩ "t" wTreeC7 (by decide)⟩

/-- Claim C8 (confirmed, spec-modelled): the two-way diff of any tree
with itself is the empty diff sequence. -/
theorem C8_diff_self (ts : List FSNode) : compare2 ts ts = [] :=
  cmp2_self (sizeL ts + sizeL ts + 1) ts

/-- Claim C9 (confirmed): `listFiles` on a non-directory top path
throws a `logic_error` naming the path, before anything is written — it
never produces a partial listing. -/
theorem C9_not_directory (st : LState) (topPath : String) (n : FSNode)
    (hd : dirB n.e = false) :
    listFiles st topPath n = .error (topPath ++ " is not a directory") := by
  show (if dirB n.e = false then Except.error (topPath ++ " is not a directory")
    else Except.ok (runLF (sizeN n) [n] ⟨st.out, false, false⟩)) = _
  rw [if_pos hd]

theorem C9_not_directory_witness :
    dirB wNodeC9.e = false ∧
    listFiles ⟨[], false, false⟩ "somefile" wNodeC9 =
      .error ("somefile" ++ " is not a directory") :=
  ⟨by decide, C9_not_directory ⟨[], false, false⟩ "somefile" wNodeC9 (by decide)⟩

def tmC10 : Tm :=
  { year := 1969, mon := 12, mday := 31, hour := 23, minute := 59, sec := 59 }

def recC10 : FilesystemElement :=
  { ty := .unknown, per := 493, us := "root", gs := "root", mt := -2,
    sz := 0, fileHash := "", rp := "x", symlink := "", hardLinkCnt := 1 }

/-- Claim C10 (confirmed): the instant one second before the epoch has
timestamp text `1969-12-31 23:59:59 +0000`, which conforms to the line
grammar, yet `readFrom` rejects any line carrying it because the
decoder treats the -1 conversion result as failure; the same line one
second earlier (epoch -2) is accepted. -/
theorem C10_epoch_minus_one :
    timegmM tmC10 = -1 ∧
    readFrom "?rwxr-xr-x root root 1969-12-31 23:59:59 +0000 \"x\"" =
      .error "Error reading mtime" ∧
    readFrom "?rwxr-xr-x root root 1969-12-31 23:59:58 +0000 \"x\"" =
      .ok recC10 :=
  ⟨by decide, rfl, rfl⟩

end DiskDiff
